import Mathlib

/-!
A verification development for the ezini INI-file handling library
(src/ezini.c, src/ezini.h).  C strings are modelled as `List Char`
(NUL-free byte strings); a file's contents are modelled as the
`List Char` of its bytes.  The stateful C functions are modelled as
pure functions that return their results and updated structures
explicitly; `malloc`-failure behaviour is modelled separately with an
explicit allocation oracle where a claim depends on it.
-/

namespace Ezini

/-- A C string: a NUL-terminated byte string, modelled as its list of
characters (without the terminator). -/
abbrev Str := List Char

/-- C `isspace` in the default locale: space, tab, newline, vertical tab,
form feed, carriage return. -/
def isspace (c : Char) : Bool :=
  c == ' ' || c == '\t' || c == '\n' || c == '\x0b' || c == '\x0c' || c == '\r'

/-- C function `SkipWS` from ezini.c: pointer to the first non-space character,
i.e. drop the leading whitespace. -/
def SkipWS (s : Str) : Str := s.dropWhile isspace

/-- Drop trailing `isspace` characters (the backwards-walking
`while (isspace(*ptr)) ptr--; *(ptr+1) = '\0'` idiom of ezini.c,
in the cases where the walk stays inside the string). -/
def dropTrailingWS (s : Str) : Str := (s.reverse.dropWhile isspace).reverse

/-- Trim leading and trailing whitespace. -/
def trimWS (s : Str) : Str := dropTrailingWS (SkipWS s)

/-- A `strchr`-style split: `splitFirst ch s = some (pre, post)` iff `ch`
occurs in `s`, where `pre` is the part before the first occurrence and
`post` the part after it. -/
def splitFirst (ch : Char) : Str → Option (Str × Str)
  | [] => none
  | c :: cs =>
    if c = ch then some ([], cs)
    else (splitFirst ch cs).map (fun p => (c :: p.1, p.2))

/-- The section-header processing of `GetEntryFromFile` (ezini.c lines
619-646), applied to the characters after the leading `'['`.  `strchr`
looks for the first `']'`; if there is none the line is malformed
(`none`).  Otherwise the code skips whitespace after the `'['` and walks
back over whitespace from the `']'`, writing a terminator.  When the
text between the brackets is empty or has a non-space character this
yields that text trimmed; when it is nonempty all-whitespace, the
terminator lands before the position the skip reached, so the resulting
section string is the `']'` itself followed by the rest of the line. -/
def parseSection (cs : Str) : Option Str :=
  match splitFirst ']' cs with
  | none => none
  | some (pre, post) =>
    if pre ≠ [] ∧ pre.all isspace then some (']' :: post)
    else some (trimWS pre)

/-- The value-extraction of `GetEntryFromFile` (ezini.c lines 695-721),
applied to the raw text after the `'='`.  Leading spaces and tabs are
skipped.  The code then walks back from the end over `isspace`
characters and writes a terminator after the stop position: if the
remaining text has a non-space character this trims its trailing
whitespace; if it is all `isspace` the walk exits the value (stopping
only at the `'='` or a skipped space), so the terminator lands at the
start of the raw text — producing the empty string when nothing was
skipped and leaving the remaining text untouched when something was. -/
def parseValue (raw : Str) : Str :=
  if (raw.dropWhile (fun c => c == ' ' || c == '\t')).all isspace then
    if (raw.dropWhile (fun c => c == ' ' || c == '\t')).length = raw.length then []
    else raw.dropWhile (fun c => c == ' ' || c == '\t')
  else dropTrailingWS (raw.dropWhile (fun c => c == ' ' || c == '\t'))

/-- The key/value processing of `GetEntryFromFile` (ezini.c lines
662-721), applied to the line starting at its first non-whitespace
character.  The scan for `'='` starts one past the first character; if
it hits the end of the line the entry is malformed (`none`).  The key is
the text before the `'='` with trailing whitespace trimmed; the value is
`parseValue` of the text after the `'='`. -/
def parseKeyValue : Str → Option (Str × Str)
  | [] => none
  | c :: cs =>
    match splitFirst '=' cs with
    | none => none
    | some (a, b) => some (dropTrailingWS (c :: a), parseValue b)

/-- Structure `ini_entry_t` from ezini.h: the caller-supplied entry structure.
Each field is a possibly-NULL C string. -/
structure IniEntry where
  sec : Option Str
  key : Option Str
  value : Option Str
deriving DecidableEq, Repr

/-- Effect of `FreeEntry` from ezini.c: all three fields freed and set to NULL. -/
def FreeEntry : IniEntry := ⟨none, none, none⟩

/-- Function `GetEntryFromFile` (ezini.c lines 590-725), acting on the sequence
of lines that `GetLine` returns.  Returns the C result code
(1 entry found, 0 no more entries, -1 error), the lines not yet
consumed, and the updated entry structure.  Blank and comment lines are
skipped; a `[...]` header replaces the entry's section and the loop
continues; any other line must be `key = value`. -/
def GetEntryFromLines : List Str → IniEntry → Int × List Str × IniEntry
  | [], _ => (0, [], FreeEntry)
  | line :: rest, e =>
    match SkipWS line with
    | [] => GetEntryFromLines rest e
    | c :: cs =>
      if c = ';' ∨ c = '#' then GetEntryFromLines rest e
      else if c = '[' then
        match parseSection cs with
        | none => (-1, rest, FreeEntry)
        | some s => GetEntryFromLines rest { e with sec := some s }
      else
        match parseKeyValue (c :: cs) with
        | none => (-1, rest, FreeEntry)
        | some kv => (1, rest, { e with key := some kv.1, value := some kv.2 })

/-- The sequence of lines `GetLine` (ezini.c lines 983-1031) produces on
a stream, accumulator version.  `GetLine` returns each `'\n'`-stripped
line; after the final `'\n'` (or on an empty file) `fgets` fails without
the EOF flag having been set, so one final empty line is produced before
`GetLine` returns NULL. -/
def linesOfAux (cur : Str) : Str → List Str
  | [] => [cur.reverse]
  | c :: cs => if c = '\n' then cur.reverse :: linesOfAux [] cs else linesOfAux (c :: cur) cs

/-- The full sequence of lines `GetLine` returns on a stream. -/
def linesOf (s : Str) : List Str := linesOfAux [] s

/-- Function `GetEntryFromFile` on a raw character stream: `GetLine`'s line
sequence fed to the line-level parser. -/
def GetEntryFromFile (s : Str) (e : IniEntry) : Int × List Str × IniEntry :=
  GetEntryFromLines (linesOf s) e

/-! ## The entry store (`ini_section_list_t` / `ini_key_list_t`) -/

/-- One key/value pair (`ini_key_list_t` node, ezini.c lines 66-76);
the linked list of nodes is modelled as a `List`. -/
abbrev KeyVal := Str × Str

/-- One section with its member list (`ini_section_list_t` node, ezini.c
lines 90-99); the linked list of sections is modelled as a `List`. -/
structure IniSection where
  name : Str
  members : List KeyVal
deriving DecidableEq, Repr

/-- An entry list (`ini_entry_list_t`): the chain of section nodes.
`[]` is the NULL (empty) list. -/
abbrev IniList := List IniSection

/-- The member-list walk of `AddEntryToList` (ezini.c lines 206-247,
success path): replace the value of the first node whose key matches,
or append a new node at the end.  The C walk presupposes a nonempty
member list (section nodes always hold at least one member); the `[]`
case is the natural completion and is never reached from C states. -/
def addKeyToMembers : List KeyVal → Str → Str → List KeyVal
  | [], k, v => [(k, v)]
  | (k0, v0) :: tl, k, v =>
    if k = k0 then (k0, v) :: tl else (k0, v0) :: addKeyToMembers tl k v

/-- Function `AddEntryToList` (ezini.c lines 164-256), success path (every
allocation succeeds): walk the section chain for the first name match
and insert the key there, or append a brand-new section at the end of
the chain. -/
def AddEntryToList : IniList → Str → Str → Str → IniList
  | [], s, k, v => [⟨s, [(k, v)]⟩]
  | sec :: tl, s, k, v =>
    if s = sec.name then ⟨sec.name, addKeyToMembers sec.members k v⟩ :: tl
    else sec :: AddEntryToList tl s k v

/-- The flattened (section, key, value) triples of a store, in the
order a full traversal visits them. -/
def entriesOfList : IniList → List (Str × Str × Str)
  | [] => []
  | s :: tl => s.members.map (fun kv => (s.name, kv.1, kv.2)) ++ entriesOfList tl

/-- The store built by a sequence of successful `AddEntryToList` calls
starting from the empty (NULL) list. -/
def loadOps (ops : List (Str × Str × Str)) : IniList :=
  ops.foldl (fun acc t => AddEntryToList acc t.1 t.2.1 t.2.2) []

/-! ## The serializer (`MakeINIFile`) -/

/-- The `key = value` lines `MakeINIFile` writes for one member list
(ezini.c lines 357-361): `fprintf(fp, "%s = %s\n", key, value)`. -/
def memberText : List KeyVal → Str
  | [] => []
  | (k, v) :: tl => k ++ ' ' :: '=' :: ' ' :: (v ++ '\n' :: memberText tl)

/-- The text `MakeINIFile` writes for a store (ezini.c lines 349-365):
for each section a `[name]` header line, its member lines, and a blank
separator line. -/
def iniText : IniList → Str
  | [] => []
  | s :: tl => '[' :: (s.name ++ ']' :: '\n' :: (memberText s.members ++ '\n' :: iniText tl))

/-- Function `MakeINIFile` (ezini.c lines 322-373): fails with EINVAL on a NULL
(empty) list, otherwise produces the file text.  (Opening the output
file is host-OS plumbing and is not modelled.) -/
def MakeINIFile (l : IniList) : Option Str :=
  if l = [] then none else some (iniText l)

/-! ## Repeated parsing (the read loops of `AddEntryToFile` and
`DeleteEntryFromFile`) -/

/-- A (section, key, value) triple as the caller of `GetEntryFromFile`
sees it in the entry structure after a successful call. -/
abbrev Triple := Option Str × Option Str × Option Str

/-- Fuel-indexed worker for `ParseLines`; the fuel only serves
termination and is irrelevant as long as it exceeds the number of
lines. -/
def ParseLinesAux : Nat → List Str → IniEntry → Option (List Triple)
  | 0, _, _ => none
  | fuel + 1, ls, e =>
    let r := GetEntryFromLines ls e
    if r.1 = 0 then some []
    else if r.1 = 1 then
      match ParseLinesAux fuel r.2.1 r.2.2 with
      | none => none
      | some t => some ((r.2.2.sec, r.2.2.key, r.2.2.value) :: t)
    else none

/-- The read loop `while ((result = GetEntryFromFile(fp, &entry)) > 0)`
of ezini.c lines 432-435 and 539-551: the list of triples produced by
repeated `GetEntryFromFile` calls, or `none` if a call reports an
error. -/
def ParseLines (ls : List Str) (e : IniEntry) : Option (List Triple) :=
  ParseLinesAux (ls.length + 1) ls e

/-- Repeatedly parse a whole character stream starting from a zeroed
entry structure (`entry.section = entry.key = entry.value = NULL`). -/
def ParseFile (s : Str) : Option (List Triple) :=
  ParseLines (linesOf s) FreeEntry

/-! ## `AddEntryToFile` and `DeleteEntryFromFile` -/

/-- The read loop of `AddEntryToFile`/`DeleteEntryFromFile` feeding
parsed triples into `AddEntryToList` (the return value of the add is
ignored there).  A NULL field is passed through as the empty string;
the C would pass the NULL pointer itself (and crash in `strcmp` on a
nonempty store), so theorems about these operations assume all parsed
sections are non-NULL. -/
def loadTriples (ts : List Triple) : IniList :=
  ts.foldl (fun acc t => AddEntryToList acc (t.1.getD []) (t.2.1.getD []) (t.2.2.getD [])) []

/-- The merge loop of `AddEntryToFile` (ezini.c lines 446-462): every
member of every section of `list` is added to the working store, in
traversal order. -/
def mergeListInto (base : IniList) (list : IniList) : IniList :=
  list.foldl
    (fun acc sec => sec.members.foldl (fun acc2 kv => AddEntryToList acc2 sec.name kv.1 kv.2) acc)
    base

/-- Function `AddEntryToFile` (ezini.c lines 399-469): fails with EINVAL on a
NULL list; reads the existing file back into a working store, adds the
entries of `list`, and rewrites the file with `MakeINIFile`.  The file
is given by its text; opening it is not modelled. -/
def AddEntryToFile (text : Str) (list : IniList) : Option Str :=
  if list = [] then none
  else
    match ParseFile text with
    | none => none
    | some ts => MakeINIFile (mergeListInto (loadTriples ts) list)

/-- Function `DeleteEntryFromFile` (ezini.c lines 500-565): reads the existing
file, copying into the working store only the entries whose section or
key differs from the given ones, and rewrites the file. -/
def DeleteEntryFromFile (text : Str) (s k : Str) : Option Str :=
  match ParseFile text with
  | none => none
  | some ts =>
    MakeINIFile (loadTriples (ts.filter (fun t => decide (¬(t.1 = some s ∧ t.2.1 = some k)))))

/-! ## Allocation-failure model of `AddEntryToList`

Heap allocations (`malloc` in `NewKeyList`/`NewSectionList`, and the
`malloc` inside `DupStr`) are modelled by an oracle: a list of `Bool`s
consumed in program order, `false` meaning the allocation fails.  An
exhausted oracle means every further allocation succeeds.  Because the
buggy update path of `AddEntryToList` frees the old value before
duplicating the new one, a member's value can be left NULL; member
values are therefore `Option Str` in this model. -/

/-- A key/value node whose value may have been left NULL. -/
abbrev KeyValA := Str × Option Str

/-- A section node in the allocation-aware model. -/
structure IniSectionA where
  name : Str
  members : List KeyValA
deriving DecidableEq, Repr

/-- Consume one allocation decision from the oracle. -/
def allocStep : List Bool → Bool × List Bool
  | [] => (true, [])
  | b :: bs => (b, bs)

/-- Function `DupStr` (ezini.c lines 945-962) under the oracle: one `malloc`,
returning NULL on failure. -/
def DupStrA (al : List Bool) (s : Str) : Option Str × List Bool :=
  let (b, al') := allocStep al
  (if b then some s else none, al')

/-- Function `NewKeyList` (ezini.c lines 751-783) under the oracle: `malloc` the
node, then duplicate key and value, freeing the partial node on any
failure (so a failed call leaves no trace). -/
def NewKeyListA (al : List Bool) (k v : Str) : Option KeyValA × List Bool :=
  let (b1, al1) := allocStep al
  if b1 then
    let (dk, al2) := DupStrA al1 k
    match dk with
    | none => (none, al2)
    | some k' =>
      let (dv, al3) := DupStrA al2 v
      match dv with
      | none => (none, al3)
      | some v' => (some (k', some v'), al3)
  else (none, al1)

/-- Function `NewSectionList` (ezini.c lines 814-847) under the oracle: `malloc`
the node, duplicate the section name, then build the first member via
`NewKeyList`, freeing the partial node on any failure. -/
def NewSectionListA (al : List Bool) (s k v : Str) : Option IniSectionA × List Bool :=
  let (b1, al1) := allocStep al
  if b1 then
    let (ds, al2) := DupStrA al1 s
    match ds with
    | none => (none, al2)
    | some s' =>
      let (mk, al3) := NewKeyListA al2 k v
      match mk with
      | none => (none, al3)
      | some m => (some ⟨s', [m]⟩, al3)
  else (none, al1)

/-- The member-list walk of `AddEntryToList` under the oracle.  On a key
match the old value is freed first and the result of `DupStr` stored
unconditionally (ezini.c lines 227-237), so a failed duplication leaves
the node with a NULL value even though -1 is returned.  On appending a
new key the result is checked (lines 239-247).  The `[]` case is never
reached from C states (member lists are nonempty). -/
def addKeyToMembersA (al : List Bool) : List KeyValA → Str → Str → Int × List KeyValA × List Bool
  | [], k, v =>
    match NewKeyListA al k v with
    | (none, al') => (-1, [], al')
    | (some m, al') => (0, [m], al')
  | (k0, v0) :: tl, k, v =>
    if k = k0 then
      match DupStrA al v with
      | (none, al') => (-1, (k0, none) :: tl, al')
      | (some v', al') => (0, (k0, some v') :: tl, al')
    else
      match tl with
      | [] =>
        match NewKeyListA al k v with
        | (none, al') => (-1, [(k0, v0)], al')
        | (some m, al') => (0, [(k0, v0), m], al')
      | _ :: _ =>
        match addKeyToMembersA al tl k v with
        | (r, tl', al') => (r, (k0, v0) :: tl', al')

/-- The section walk of `AddEntryToList` under the oracle.  When the
walk reaches the last node without a name match, a new section is
appended with `next->next = NewSectionList(...)` and `0` is returned
with no check of the allocation (ezini.c lines 249-255): a failed
allocation silently drops the entry while still reporting success. -/
def addSectionWalkA (al : List Bool) (sec : IniSectionA) (tl : List IniSectionA)
    (s k v : Str) : Int × List IniSectionA × List Bool :=
  if s = sec.name then
    match addKeyToMembersA al sec.members k v with
    | (r, m', al') => (r, ⟨sec.name, m'⟩ :: tl, al')
  else
    match tl with
    | [] =>
      match NewSectionListA al s k v with
      | (none, al') => (0, [sec], al')
      | (some ns, al') => (0, [sec, ns], al')
    | next :: rest =>
      match addSectionWalkA al next rest s k v with
      | (r, l', al') => (r, sec :: l', al')

/-- Function `AddEntryToList` (ezini.c lines 164-256) under the allocation
oracle: result code, resulting list, remaining oracle. -/
def AddEntryToListAlloc (al : List Bool) (l : List IniSectionA) (s k v : Str) :
    Int × List IniSectionA × List Bool :=
  match l with
  | [] =>
    match NewSectionListA al s k v with
    | (none, al') => (-1, [], al')
    | (some ns, al') => (0, [ns], al')
  | sec :: tl => addSectionWalkA al sec tl s k v

/-! ## Well-formedness of field strings

ezini's INI text cannot represent arbitrary C strings: a section name
containing `']'` or surrounding whitespace, a key containing `'='`, a
value with leading blanks, or any field containing `'\n'` does not
survive a serialize/parse cycle.  These predicates single out the
strings the format represents faithfully. -/

/-- A section name that serializes faithfully: no newline, no `']'`,
no leading or trailing whitespace. -/
def wfSec (s : Str) : Prop :=
  ('\n' ∉ s) ∧ (']' ∉ s) ∧ SkipWS s = s ∧ dropTrailingWS s = s

/-- A key that serializes faithfully: nonempty, no newline, no `'='`,
no surrounding whitespace, and not starting with a comment or section
marker. -/
def wfKey (k : Str) : Prop :=
  k ≠ [] ∧ ('\n' ∉ k) ∧ ('=' ∉ k) ∧ SkipWS k = k ∧ dropTrailingWS k = k ∧
    k.head? ≠ some '[' ∧ k.head? ≠ some ';' ∧ k.head? ≠ some '#'

/-- A value that serializes faithfully: no newline, no leading space or
tab, no trailing whitespace. -/
def wfVal (v : Str) : Prop :=
  ('\n' ∉ v) ∧ v.dropWhile (fun c => c == ' ' || c == '\t') = v ∧ dropTrailingWS v = v

/-- Every field string of the store is faithful to the format. -/
def wfStore (l : IniList) : Prop :=
  ∀ sec ∈ l, wfSec sec.name ∧ ∀ kv ∈ sec.members, wfKey kv.1 ∧ wfVal kv.2

instance (s : Str) : Decidable (wfSec s) := by unfold wfSec; infer_instance

instance (k : Str) : Decidable (wfKey k) := by unfold wfKey; infer_instance

instance (v : Str) : Decidable (wfVal v) := by unfold wfVal; infer_instance

instance (l : IniList) : Decidable (wfStore l) := by unfold wfStore; infer_instance

/-! ## Basic lemmas about the string utilities -/

theorem length_dropWhile_le (p : Char → Bool) (l : Str) :
    (l.dropWhile p).length ≤ l.length :=
  (List.dropWhile_sublist p).length_le

theorem splitFirst_append (ch : Char) (l r : Str) (h : ch ∉ l) :
    splitFirst ch (l ++ ch :: r) = some (l, r) := by
  induction l with
  | nil => simp [splitFirst]
  | cons c cs ih =>
    simp only [List.mem_cons, not_or] at h
    simp [splitFirst, Ne.symm h.1, ih h.2]

theorem splitFirst_of_not_mem (ch : Char) (l : Str) (h : ch ∉ l) :
    splitFirst ch l = none := by
  induction l with
  | nil => rfl
  | cons c cs ih =>
    simp only [List.mem_cons, not_or] at h
    simp [splitFirst, Ne.symm h.1, ih h.2]

theorem linesOfAux_append (a : Str) (h : '\n' ∉ a) :
    ∀ (cur : Str) (r : Str),
      linesOfAux cur (a ++ '\n' :: r) = (cur.reverse ++ a) :: linesOfAux [] r := by
  induction a with
  | nil => intro cur r; simp [linesOfAux]
  | cons c cs ih =>
    intro cur r
    simp only [List.mem_cons, not_or] at h
    simp [linesOfAux, Ne.symm h.1, ih h.2 (c :: cur) r]

theorem linesOf_append (a r : Str) (h : '\n' ∉ a) :
    linesOf (a ++ '\n' :: r) = a :: linesOf r := by
  simpa [linesOf] using linesOfAux_append a h [] r

theorem linesOfAux_no_newline (a : Str) (h : '\n' ∉ a) :
    ∀ cur : Str, linesOfAux cur a = [cur.reverse ++ a] := by
  induction a with
  | nil => intro cur; simp [linesOfAux]
  | cons c cs ih =>
    intro cur
    simp only [List.mem_cons, not_or] at h
    simp [linesOfAux, Ne.symm h.1, ih h.2 (c :: cur)]

theorem linesOf_no_newline (a : Str) (h : '\n' ∉ a) : linesOf a = [a] := by
  simpa [linesOf] using linesOfAux_no_newline a h []

theorem SkipWS_cons_of_not_space {c : Char} (h : isspace c = false) (cs : Str) :
    SkipWS (c :: cs) = c :: cs := by
  simp [SkipWS, h]

theorem not_space_head_of_SkipWS_eq {c : Char} {cs : Str} (h : SkipWS (c :: cs) = c :: cs) :
    isspace c = false := by
  cases hb : isspace c with
  | false => rfl
  | true =>
    exfalso
    rw [SkipWS, List.dropWhile_cons, hb] at h
    simp only [if_true] at h
    have hle := length_dropWhile_le isspace cs
    rw [h] at hle
    simp at hle

theorem dropTrailingWS_append_ws {w : Char} (h : isspace w = true) (l : Str) :
    dropTrailingWS (l ++ [w]) = dropTrailingWS l := by
  simp [dropTrailingWS, h]

theorem all_isspace_eq_false {v : Str} (h : dropTrailingWS v = v) (hne : v ≠ []) :
    v.all isspace = false := by
  have hrev : v.reverse.dropWhile isspace = v.reverse := by
    have := congrArg List.reverse h
    rwa [dropTrailingWS, List.reverse_reverse] at this
  rcases hr : v.reverse with _ | ⟨c, cs⟩
  · exact absurd (by simpa using congrArg List.reverse hr) hne
  · rw [hr] at hrev
    have hc : isspace c = false := by
      cases hb : isspace c with
      | false => rfl
      | true =>
        exfalso
        rw [List.dropWhile_cons, hb] at hrev
        simp only [if_true] at hrev
        have hle := length_dropWhile_le isspace cs
        rw [hrev] at hle
        simp at hle
    have hcv : c ∈ v := by
      have : c ∈ v.reverse := by rw [hr]; exact List.mem_cons_self c cs
      simpa using this
    cases hall : v.all isspace with
    | false => rfl
    | true =>
      exfalso
      rw [List.all_eq_true] at hall
      rw [hall c hcv] at hc
      exact absurd hc (by decide)

theorem wfSec_not_allspace {s : Str} (h : wfSec s) :
    ¬(s ≠ [] ∧ s.all isspace = true) := by
  rintro ⟨hne, hall⟩
  have := all_isspace_eq_false h.2.2.2 hne
  rw [hall] at this
  exact absurd this (by decide)

theorem wfSec_trim {s : Str} (h : wfSec s) : trimWS s = s := by
  rw [trimWS, h.2.2.1, h.2.2.2]

/-! ## Step lemmas for `GetEntryFromLines` -/

theorem parseSection_split {inner post : Str} (h1 : ']' ∉ inner)
    (h2 : ¬(inner ≠ [] ∧ inner.all isspace = true)) :
    parseSection (inner ++ ']' :: post) = some (trimWS inner) := by
  rw [parseSection, splitFirst_append ']' inner post h1]
  simp only [h2, if_false]

theorem parseSection_wf {s : Str} (h : wfSec s) (post : Str) :
    parseSection (s ++ ']' :: post) = some s := by
  rw [parseSection_split h.2.1 (wfSec_not_allspace h), wfSec_trim h]

theorem parseValue_wf {v : Str} (h : wfVal v) : parseValue (' ' :: v) = v := by
  have h1 : (' ' :: v).dropWhile (fun c => c == ' ' || c == '\t') = v := by
    rw [List.dropWhile_cons, if_pos (by decide)]
    exact h.2.1
  rw [parseValue, h1]
  rcases hv : v with _ | ⟨d, v'⟩
  · simp
  · rw [← hv]
    have hne : v ≠ [] := by rw [hv]; simp
    rw [all_isspace_eq_false h.2.2 hne]
    simp [h.2.2]

theorem parseKeyValue_wf {k v : Str} (hk : wfKey k) (hv : wfVal v) :
    parseKeyValue (k ++ ' ' :: '=' :: ' ' :: v) = some (k, v) := by
  rcases hk1 : k with _ | ⟨c, k'⟩
  · exact absurd hk1 hk.1
  subst hk1
  have hmem : '=' ∉ k' ++ [' '] := by
    intro hm
    rcases List.mem_append.1 hm with hm | hm
    · exact hk.2.2.1 (List.mem_cons_of_mem c hm)
    · simp at hm
  rw [show (c :: k') ++ ' ' :: '=' :: ' ' :: v = c :: (k' ++ ' ' :: '=' :: ' ' :: v) from rfl]
  simp only [parseKeyValue]
  rw [show k' ++ ' ' :: '=' :: ' ' :: v = (k' ++ [' ']) ++ '=' :: (' ' :: v) from by simp,
    splitFirst_append '=' (k' ++ [' ']) (' ' :: v) hmem]
  have hkey : dropTrailingWS (c :: (k' ++ [' '])) = c :: k' := by
    rw [show c :: (k' ++ [' ']) = (c :: k') ++ [' '] from rfl,
      dropTrailingWS_append_ws (by decide), hk.2.2.2.2.1]
  simp [hkey, parseValue_wf hv]

theorem getEntry_nil (e : IniEntry) : GetEntryFromLines [] e = (0, [], FreeEntry) := rfl

theorem getEntry_step_blank {line : Str} (h : SkipWS line = []) (ls : List Str) (e : IniEntry) :
    GetEntryFromLines (line :: ls) e = GetEntryFromLines ls e := by
  simp [GetEntryFromLines, h]

theorem getEntry_step_header {inner post : Str} (h1 : ']' ∉ inner)
    (h2 : ¬(inner ≠ [] ∧ inner.all isspace = true)) (ls : List Str) (e : IniEntry) :
    GetEntryFromLines (('[' :: (inner ++ ']' :: post)) :: ls) e
      = GetEntryFromLines ls { e with sec := some (trimWS inner) } := by
  have hskip : SkipWS ('[' :: (inner ++ ']' :: post)) = '[' :: (inner ++ ']' :: post) :=
    SkipWS_cons_of_not_space (by decide) _
  simp only [GetEntryFromLines, hskip]
  rw [if_pos trivial, parseSection_split h1 h2]
  rw [if_neg (show ¬('[' = ';' ∨ '[' = '#') by simp)]

theorem getEntry_step_header_wf {s : Str} (h : wfSec s) (ls : List Str) (e : IniEntry) :
    GetEntryFromLines (('[' :: (s ++ [']'])) :: ls) e
      = GetEntryFromLines ls { e with sec := some s } := by
  have := @getEntry_step_header s [] h.2.1 (wfSec_not_allspace h) ls e
  rwa [wfSec_trim h] at this

theorem getEntry_step_kv {k v : Str} (hk : wfKey k) (hv : wfVal v) (ls : List Str)
    (e : IniEntry) :
    GetEntryFromLines ((k ++ ' ' :: '=' :: ' ' :: v) :: ls) e
      = (1, ls, { e with key := some k, value := some v }) := by
  rcases hk1 : k with _ | ⟨c, k'⟩
  · exact absurd hk1 hk.1
  subst hk1
  have hc : isspace c = false := not_space_head_of_SkipWS_eq hk.2.2.2.1
  rw [show (c :: k') ++ ' ' :: '=' :: ' ' :: v = c :: (k' ++ ' ' :: '=' :: ' ' :: v) from rfl]
  have hskip := SkipWS_cons_of_not_space hc (k' ++ ' ' :: '=' :: ' ' :: v)
  simp only [GetEntryFromLines, hskip]
  have hsemi : ¬(c = ';' ∨ c = '#') := by
    rintro (rfl | rfl)
    · exact hk.2.2.2.2.2.2.1 rfl
    · exact hk.2.2.2.2.2.2.2 rfl
  have hbr : ¬c = '[' := fun hh => hk.2.2.2.2.2.1 (by rw [hh]; rfl)
  rw [if_neg hsemi, if_neg hbr]
  have hpkv : parseKeyValue (c :: (k' ++ ' ' :: '=' :: ' ' :: v)) = some (c :: k', v) :=
    parseKeyValue_wf hk hv
  rw [hpkv]

/-! ## The read loop: `ParseLines` -/

theorem getEntry_len :
    ∀ (ls : List Str) (e : IniEntry),
      ((GetEntryFromLines ls e).2.1).length ≤ ls.length ∧
      ((GetEntryFromLines ls e).1 = 1 → ((GetEntryFromLines ls e).2.1).length < ls.length) := by
  intro ls
  induction ls with
  | nil =>
    intro e
    exact ⟨le_refl _, fun h => by simp [GetEntryFromLines] at h⟩
  | cons line rest ih =>
    intro e
    have hstep : rest.length < (line :: rest).length := by simp
    cases hs : SkipWS line with
    | nil =>
      simp only [GetEntryFromLines, hs]
      exact ⟨(ih e).1.trans hstep.le, fun _ => lt_of_le_of_lt (ih e).1 hstep⟩
    | cons c cs =>
      simp only [GetEntryFromLines, hs]
      by_cases hsc : c = ';' ∨ c = '#'
      · rw [if_pos hsc]
        exact ⟨(ih e).1.trans hstep.le, fun _ => lt_of_le_of_lt (ih e).1 hstep⟩
      · rw [if_neg hsc]
        by_cases hbr : c = '['
        · rw [if_pos hbr]
          cases hps : parseSection cs with
          | none => exact ⟨hstep.le, fun h => by simp at h⟩
          | some s =>
            exact ⟨(ih _).1.trans hstep.le, fun _ => lt_of_le_of_lt (ih _).1 hstep⟩
        · rw [if_neg hbr]
          cases hpk : parseKeyValue (c :: cs) with
          | none => exact ⟨hstep.le, fun h => by simp at h⟩
          | some kv => exact ⟨hstep.le, fun _ => hstep⟩

theorem getEntry_rest_le (ls : List Str) (e : IniEntry) :
    ((GetEntryFromLines ls e).2.1).length ≤ ls.length :=
  (getEntry_len ls e).1

theorem getEntry_rest_lt (ls : List Str) (e : IniEntry) (h : (GetEntryFromLines ls e).1 = 1) :
    ((GetEntryFromLines ls e).2.1).length < ls.length :=
  (getEntry_len ls e).2 h

theorem parseLinesAux_congr :
    ∀ (n m : Nat) (ls : List Str) (e : IniEntry), ls.length < n → ls.length < m →
      ParseLinesAux n ls e = ParseLinesAux m ls e := by
  intro n
  induction n with
  | zero => intro m ls e hn; exact absurd hn (by simp)
  | succ n ih =>
    intro m ls e hn hm
    cases m with
    | zero => exact absurd hm (by simp)
    | succ m =>
      simp only [ParseLinesAux]
      by_cases h0 : (GetEntryFromLines ls e).1 = 0
      · rw [if_pos h0, if_pos h0]
      · rw [if_neg h0, if_neg h0]
        by_cases h1 : (GetEntryFromLines ls e).1 = 1
        · rw [if_pos h1, if_pos h1]
          have hlt := getEntry_rest_lt ls e h1
          rw [ih m ((GetEntryFromLines ls e).2.1) ((GetEntryFromLines ls e).2.2)
            (lt_of_lt_of_le hlt (Nat.lt_succ_iff.1 hn)) (lt_of_lt_of_le hlt (Nat.lt_succ_iff.1 hm))]
        · rw [if_neg h1, if_neg h1]

theorem ParseLines_eq_zero {ls : List Str} {e : IniEntry}
    (h : (GetEntryFromLines ls e).1 = 0) : ParseLines ls e = some [] := by
  rw [ParseLines, ParseLinesAux, if_pos h]

theorem ParseLines_eq_err {ls : List Str} {e : IniEntry}
    (h0 : (GetEntryFromLines ls e).1 ≠ 0) (h1 : (GetEntryFromLines ls e).1 ≠ 1) :
    ParseLines ls e = none := by
  rw [ParseLines, ParseLinesAux, if_neg h0, if_neg h1]

theorem ParseLines_eq_one {ls : List Str} {e : IniEntry}
    (h : (GetEntryFromLines ls e).1 = 1) :
    ParseLines ls e =
      (ParseLines (GetEntryFromLines ls e).2.1 (GetEntryFromLines ls e).2.2).map
        (fun t => ((GetEntryFromLines ls e).2.2.sec, (GetEntryFromLines ls e).2.2.key,
          (GetEntryFromLines ls e).2.2.value) :: t) := by
  rw [ParseLines, ParseLinesAux, if_neg (by rw [h]; decide), if_pos h]
  have hlt := getEntry_rest_lt ls e h
  rw [parseLinesAux_congr ls.length ((GetEntryFromLines ls e).2.1.length + 1)
    ((GetEntryFromLines ls e).2.1) ((GetEntryFromLines ls e).2.2) hlt (Nat.lt_succ_self _)]
  rw [← ParseLines]
  cases ParseLines (GetEntryFromLines ls e).2.1 (GetEntryFromLines ls e).2.2 with
  | none => rfl
  | some t => rfl

theorem ParseLines_congr {ls₁ : List Str} {e₁ : IniEntry} {ls₂ : List Str} {e₂ : IniEntry}
    (h : GetEntryFromLines ls₁ e₁ = GetEntryFromLines ls₂ e₂) :
    ParseLines ls₁ e₁ = ParseLines ls₂ e₂ := by
  by_cases h0 : (GetEntryFromLines ls₁ e₁).1 = 0
  · rw [ParseLines_eq_zero h0, ParseLines_eq_zero (by rw [← h]; exact h0)]
  · by_cases h1 : (GetEntryFromLines ls₁ e₁).1 = 1
    · rw [ParseLines_eq_one h1, h,
        ← ParseLines_eq_one (show (GetEntryFromLines ls₂ e₂).1 = 1 by rw [← h]; exact h1)]
    · rw [ParseLines_eq_err h0 h1,
        ParseLines_eq_err (by rw [← h]; exact h0) (by rw [← h]; exact h1)]

/-! ## Round trip: serialize then parse -/

/-- The line a member serializes to. -/
def kvLine (kv : KeyVal) : Str := kv.1 ++ ' ' :: '=' :: ' ' :: kv.2

/-- The lines `MakeINIFile`'s text splits into: for each section a
header line, its member lines, and one blank separator line. -/
def serialLines : IniList → List Str
  | [] => []
  | s :: tl => ('[' :: (s.name ++ [']'])) :: (s.members.map kvLine ++ ([] :: serialLines tl))

/-- The triples the parse of a serialized store yields: each entry with
all three fields non-NULL. -/
def someTriples : IniList → List Triple
  | [] => []
  | s :: tl => s.members.map (fun kv => (some s.name, some kv.1, some kv.2)) ++ someTriples tl

theorem no_newline_kvLine {kv : KeyVal} (hk : wfKey kv.1) (hv : wfVal kv.2) :
    '\n' ∉ kvLine kv := by
  intro hm
  rcases List.mem_append.1 hm with hm | hm
  · exact hk.2.1 hm
  · rcases hm with _ | ⟨_, hm⟩
    rcases hm with _ | ⟨_, hm⟩
    rcases hm with _ | ⟨_, hm⟩
    exact hv.1 hm

theorem linesOf_memberText {ms : List KeyVal}
    (h : ∀ kv ∈ ms, wfKey kv.1 ∧ wfVal kv.2) (x : Str) :
    linesOf (memberText ms ++ '\n' :: x) = ms.map kvLine ++ ([] :: linesOf x) := by
  induction ms with
  | nil => simpa using linesOf_append [] x (by simp)
  | cons kv tl ih =>
    have hkv := h kv (List.mem_cons_self kv tl)
    have htl : ∀ kv ∈ tl, wfKey kv.1 ∧ wfVal kv.2 :=
      fun kv2 hm => h kv2 (List.mem_cons_of_mem kv hm)
    have hassoc : memberText (kv :: tl) ++ '\n' :: x
        = kvLine kv ++ '\n' :: (memberText tl ++ '\n' :: x) := by
      cases kv with
      | mk k v => simp [memberText, kvLine]
    rw [hassoc, linesOf_append _ _ (no_newline_kvLine hkv.1 hkv.2), ih htl]
    simp

theorem linesOf_iniText {l : IniList} (h : wfStore l) :
    linesOf (iniText l) = serialLines l ++ [[]] := by
  induction l with
  | nil => simp [iniText, serialLines, linesOf, linesOfAux]
  | cons s tl ih =>
    have hs := h s (List.mem_cons_self s tl)
    have htl : wfStore tl := fun sec hm => h sec (List.mem_cons_of_mem s hm)
    have hassoc : iniText (s :: tl)
        = ('[' :: (s.name ++ [']'])) ++ '\n' :: (memberText s.members ++ '\n' :: iniText tl) := by
      simp [iniText]
    have hnl : '\n' ∉ '[' :: (s.name ++ [']']) := by
      intro hm
      rcases hm with _ | ⟨_, hm⟩
      rcases List.mem_append.1 hm with hm | hm
      · exact hs.1.1 hm
      · simp at hm
    rw [hassoc, linesOf_append _ _ hnl, linesOf_memberText hs.2 (iniText tl), ih htl]
    simp [serialLines]

theorem getEntry_entry_congr :
    ∀ (ls : List Str) (e₁ e₂ : IniEntry), e₁.sec = e₂.sec →
      GetEntryFromLines ls e₁ = GetEntryFromLines ls e₂ := by
  intro ls
  induction ls with
  | nil => intro e₁ e₂ _; rfl
  | cons line rest ih =>
    intro e₁ e₂ hsec
    cases hs : SkipWS line with
    | nil => simp only [GetEntryFromLines, hs]; exact ih e₁ e₂ hsec
    | cons c cs =>
      simp only [GetEntryFromLines, hs]
      by_cases hsc : c = ';' ∨ c = '#'
      · rw [if_pos hsc, if_pos hsc]; exact ih e₁ e₂ hsec
      · rw [if_neg hsc, if_neg hsc]
        by_cases hbr : c = '['
        · rw [if_pos hbr, if_pos hbr]
          cases hps : parseSection cs with
          | none => rfl
          | some s => exact ih _ _ rfl
        · rw [if_neg hbr, if_neg hbr]
          cases hpk : parseKeyValue (c :: cs) with
          | none => rfl
          | some kv => simp [hsec]

theorem ParseLines_entry_congr {ls : List Str} {e₁ e₂ : IniEntry} (h : e₁.sec = e₂.sec) :
    ParseLines ls e₁ = ParseLines ls e₂ :=
  ParseLines_congr (getEntry_entry_congr ls e₁ e₂ h)

theorem ParseLines_members {ms : List KeyVal}
    (h : ∀ kv ∈ ms, wfKey kv.1 ∧ wfVal kv.2) :
    ∀ (e : IniEntry) (S : Str), e.sec = some S → ∀ rest : List Str,
      ParseLines (ms.map kvLine ++ rest) e
        = (ParseLines rest { e with sec := some S }).map
            (fun t => ms.map (fun kv => (some S, some kv.1, some kv.2)) ++ t) := by
  induction ms with
  | nil =>
    intro e S hsec rest
    simp only [List.map_nil, List.nil_append]
    rw [ParseLines_entry_congr (show e.sec = ({ e with sec := some S } : IniEntry).sec by
      rw [hsec])]
    cases ParseLines rest { e with sec := some S } with
    | none => rfl
    | some t => simp
  | cons kv tl ih =>
    intro e S hsec rest
    have hkv := h kv (List.mem_cons_self kv tl)
    have htl : ∀ kv ∈ tl, wfKey kv.1 ∧ wfVal kv.2 :=
      fun kv2 hm => h kv2 (List.mem_cons_of_mem kv hm)
    have hg : GetEntryFromLines (kvLine kv :: (tl.map kvLine ++ rest)) e
        = (1, tl.map kvLine ++ rest, { e with key := some kv.1, value := some kv.2 }) :=
      getEntry_step_kv hkv.1 hkv.2 (tl.map kvLine ++ rest) e
    have h1 : (GetEntryFromLines (kvLine kv :: (tl.map kvLine ++ rest)) e).1 = 1 := by
      rw [hg]
    have hstep := ParseLines_eq_one h1
    rw [hg] at hstep
    simp only [List.map_cons, List.cons_append]
    rw [hstep]
    have hsec' : ({ e with key := some kv.1, value := some kv.2 } : IniEntry).sec = some S := hsec
    rw [ih htl _ S hsec' rest, Option.map_map]
    have hcg := @ParseLines_entry_congr rest (⟨some S, some kv.1, some kv.2⟩ : IniEntry)
      (⟨some S, e.key, e.value⟩ : IniEntry) rfl
    simp only [hcg, hsec, Option.map_map]
    rfl

theorem ParseLines_serialLines {l : IniList} (h : wfStore l) :
    ∀ e : IniEntry, ParseLines (serialLines l ++ [[]]) e = some (someTriples l) := by
  induction l with
  | nil =>
    intro e
    rw [show (serialLines [] ++ [[]] : List Str) = [[]] from rfl]
    refine ParseLines_eq_zero ?_
    rw [getEntry_step_blank (show SkipWS ([] : Str) = [] from rfl), getEntry_nil]
  | cons s tl ih =>
    intro e
    have hs := h s (List.mem_cons_self s tl)
    have htl : wfStore tl := fun sec hm => h sec (List.mem_cons_of_mem s hm)
    rw [show (serialLines (s :: tl) ++ [[]] : List Str)
      = ('[' :: (s.name ++ [']'])) :: (s.members.map kvLine ++ ([] :: (serialLines tl ++ [[]])))
      from by simp [serialLines]]
    rw [ParseLines_congr (getEntry_step_header_wf hs.1 _ e)]
    rw [ParseLines_members hs.2 _ s.name rfl ([] :: (serialLines tl ++ [[]]))]
    have hblank : GetEntryFromLines ([] :: (serialLines tl ++ [[]])) { e with sec := some s.name }
        = GetEntryFromLines (serialLines tl ++ [[]]) { e with sec := some s.name } :=
      getEntry_step_blank (show SkipWS ([] : Str) = [] from rfl) _ _
    rw [ParseLines_congr hblank, ih htl]
    simp [someTriples]

/-- Parsing a serialized store: `ParseFile text` is the triple sequence repeated `GetEntryFromFile`
produces on `text` starting from a zeroed entry. -/
theorem ParseFile_iniText {l : IniList} (h : wfStore l) :
    ParseFile (iniText l) = some (someTriples l) := by
  rw [ParseFile, linesOf_iniText h, ParseLines_serialLines h]

/-! ## Lookup in the store, and the store invariants -/

/-- Walk a member list for the first key match (the search order of
both the insert walk and a traversal). -/
def lookupKey : List KeyVal → Str → Option Str
  | [], _ => none
  | (k0, v0) :: tl, k => if k = k0 then some v0 else lookupKey tl k

/-- Walk the section chain for the first name match and look the key up
in that section's members. -/
def storeLookup : IniList → Str → Str → Option Str
  | [], _, _ => none
  | sec :: tl, s, k => if s = sec.name then lookupKey sec.members k else storeLookup tl s k

/-- The value of the last triple in the list matching (section, key),
if any: the value that survives when the triples are inserted
left-to-right. -/
def lastAssoc : List (Str × Str × Str) → Str → Str → Option Str
  | [], _, _ => none
  | t :: tl, s, k =>
    match lastAssoc tl s k with
    | some v => some v
    | none => if t.1 = s ∧ t.2.1 = k then some t.2.2 else none

/-- The structural invariant `AddEntryToList` maintains: section names
are unique, member lists are nonempty, and keys are unique within a
section. -/
def WFS (l : IniList) : Prop :=
  (l.map IniSection.name).Nodup ∧
    ∀ sec ∈ l, sec.members ≠ [] ∧ (sec.members.map Prod.fst).Nodup

instance (l : IniList) : Decidable (WFS l) := by unfold WFS; infer_instance

theorem lookupKey_addKey_self (m : List KeyVal) (k v : Str) :
    lookupKey (addKeyToMembers m k v) k = some v := by
  induction m with
  | nil => simp [addKeyToMembers, lookupKey]
  | cons kv tl ih =>
    cases kv with
    | mk k0 v0 =>
      by_cases hk : k = k0
      · simp [addKeyToMembers, lookupKey, hk]
      · simp [addKeyToMembers, lookupKey, hk, ih]

theorem lookupKey_addKey_other (m : List KeyVal) (k v k' : Str) (h : k' ≠ k) :
    lookupKey (addKeyToMembers m k v) k' = lookupKey m k' := by
  induction m with
  | nil => simp [addKeyToMembers, lookupKey, h]
  | cons kv tl ih =>
    cases kv with
    | mk k0 v0 =>
      by_cases hk : k = k0
      · subst hk
        simp [addKeyToMembers, lookupKey, h]
      · by_cases hk' : k' = k0
        · simp [addKeyToMembers, lookupKey, hk, hk']
        · simp [addKeyToMembers, lookupKey, hk, hk', ih]

theorem storeLookup_add_self (l : IniList) (s k v : Str) :
    storeLookup (AddEntryToList l s k v) s k = some v := by
  induction l with
  | nil => simp [AddEntryToList, storeLookup, lookupKey]
  | cons sec tl ih =>
    by_cases hs : s = sec.name
    · simp [AddEntryToList, storeLookup, hs, lookupKey_addKey_self]
    · simp [AddEntryToList, storeLookup, hs, ih]

theorem storeLookup_add_other (l : IniList) (s k v s' k' : Str)
    (h : ¬(s' = s ∧ k' = k)) :
    storeLookup (AddEntryToList l s k v) s' k' = storeLookup l s' k' := by
  induction l with
  | nil =>
    by_cases hs : s' = s
    · have hk : k' ≠ k := fun hk => h ⟨hs, hk⟩
      simp [AddEntryToList, storeLookup, hs, lookupKey, hk]
    · simp [AddEntryToList, storeLookup, hs]
  | cons sec tl ih =>
    by_cases hs : s = sec.name
    · rw [AddEntryToList, if_pos hs]
      by_cases hs' : s' = sec.name
      · have hk : k' ≠ k := fun hk => h ⟨hs'.trans hs.symm, hk⟩
        simp [storeLookup, hs', lookupKey_addKey_other _ _ _ _ hk]
      · simp [storeLookup, hs']
    · rw [AddEntryToList, if_neg hs]
      by_cases hs' : s' = sec.name
      · simp [storeLookup, hs']
      · simp [storeLookup, hs', ih]

/-- Folding a triple list into a store with `AddEntryToList`. -/
def foldTriples (init : IniList) (ts : List (Str × Str × Str)) : IniList :=
  ts.foldl (fun acc t => AddEntryToList acc t.1 t.2.1 t.2.2) init

theorem storeLookup_foldTriples (ts : List (Str × Str × Str)) :
    ∀ (init : IniList) (s k : Str),
      storeLookup (foldTriples init ts) s k =
        match lastAssoc ts s k with
        | some v => some v
        | none => storeLookup init s k := by
  induction ts with
  | nil => intro init s k; simp [foldTriples, lastAssoc]
  | cons t tl ih =>
    intro init s k
    rw [show foldTriples init (t :: tl) = foldTriples (AddEntryToList init t.1 t.2.1 t.2.2) tl
      from rfl]
    rw [ih]
    rw [show lastAssoc (t :: tl) s k = (match lastAssoc tl s k with
      | some v => some v
      | none => if t.1 = s ∧ t.2.1 = k then some t.2.2 else none) from rfl]
    cases lastAssoc tl s k with
    | some v => rfl
    | none =>
      by_cases hm : t.1 = s ∧ t.2.1 = k
      · rw [if_pos hm]
        rcases hm with ⟨h1, h2⟩
        subst h1; subst h2
        exact storeLookup_add_self init t.1 t.2.1 t.2.2
      · rw [if_neg hm]
        exact storeLookup_add_other init t.1 t.2.1 t.2.2 s k
          (fun hc => hm ⟨hc.1.symm, hc.2.symm⟩)

theorem loadOps_eq_foldTriples (ops : List (Str × Str × Str)) :
    loadOps ops = foldTriples [] ops := rfl

/-! ### `AddEntryToList` preserves the structural invariants -/

theorem addKey_ne_nil (m : List KeyVal) (k v : Str) : addKeyToMembers m k v ≠ [] := by
  cases m with
  | nil => simp [addKeyToMembers]
  | cons kv tl =>
    cases kv with
    | mk k0 v0 =>
      by_cases hk : k = k0 <;> simp [addKeyToMembers, hk]

theorem AddEntry_ne_nil (l : IniList) (s k v : Str) : AddEntryToList l s k v ≠ [] := by
  cases l with
  | nil => simp [AddEntryToList]
  | cons sec tl =>
    by_cases hs : s = sec.name <;> simp [AddEntryToList, hs]

theorem addKey_keys (m : List KeyVal) (k v : Str) :
    (addKeyToMembers m k v).map Prod.fst =
      if k ∈ m.map Prod.fst then m.map Prod.fst else m.map Prod.fst ++ [k] := by
  induction m with
  | nil => simp [addKeyToMembers]
  | cons kv tl ih =>
    cases kv with
    | mk k0 v0 =>
      by_cases hk : k = k0
      · simp [addKeyToMembers, hk]
      · simp only [addKeyToMembers, if_neg hk, List.map_cons, List.mem_cons]
        rw [ih]
        by_cases hm : k ∈ tl.map Prod.fst
        · rw [if_pos hm, if_pos (Or.inr hm)]
        · rw [if_neg hm, if_neg (by rintro (h | h); exact hk h; exact hm h)]
          simp

theorem AddEntry_names (l : IniList) (s k v : Str) :
    (AddEntryToList l s k v).map IniSection.name =
      if s ∈ l.map IniSection.name then l.map IniSection.name
      else l.map IniSection.name ++ [s] := by
  induction l with
  | nil => simp [AddEntryToList]
  | cons sec tl ih =>
    by_cases hs : s = sec.name
    · simp [AddEntryToList, hs]
    · simp only [AddEntryToList, if_neg hs, List.map_cons, List.mem_cons]
      rw [ih]
      by_cases hm : s ∈ tl.map IniSection.name
      · rw [if_pos hm, if_pos (Or.inr hm)]
      · rw [if_neg hm, if_neg (by rintro (h | h); exact hs h; exact hm h)]
        simp

theorem addKey_keys_nodup {m : List KeyVal} (h : (m.map Prod.fst).Nodup) (k v : Str) :
    ((addKeyToMembers m k v).map Prod.fst).Nodup := by
  rw [addKey_keys]
  by_cases hm : k ∈ m.map Prod.fst
  · rwa [if_pos hm]
  · rw [if_neg hm]
    simp [List.nodup_append, h, hm]

/-- Where each section of `AddEntryToList l s k v` comes from: it is a
section of `l`, the freshly created section, or the section of `l`
named `s` with the key inserted into its members. -/
theorem AddEntry_cases (l : IniList) (s k v : Str) :
    ∀ sec' ∈ AddEntryToList l s k v,
      sec' ∈ l ∨ sec' = ⟨s, [(k, v)]⟩ ∨
        ∃ sec ∈ l, sec.name = s ∧ sec' = ⟨s, addKeyToMembers sec.members k v⟩ := by
  induction l with
  | nil =>
    intro sec' hm
    rcases List.mem_singleton.1 hm with rfl
    right; left; rfl
  | cons sec tl ih =>
    intro sec' hm
    by_cases hs : s = sec.name
    · rw [AddEntryToList, if_pos hs] at hm
      rcases hm with _ | ⟨_, hm⟩
      · right; right
        exact ⟨sec, List.mem_cons_self sec tl, hs.symm, by rw [hs]⟩
      · left; exact List.mem_cons_of_mem sec hm
    · rw [AddEntryToList, if_neg hs] at hm
      rcases hm with _ | ⟨_, hm⟩
      · left; exact List.mem_cons_self sec tl
      · rcases ih sec' hm with h | h | ⟨sec2, hm2, hn2, he2⟩
        · left; exact List.mem_cons_of_mem sec h
        · right; left; exact h
        · right; right; exact ⟨sec2, List.mem_cons_of_mem sec hm2, hn2, he2⟩

theorem WFS_AddEntry {l : IniList} (h : WFS l) (s k v : Str) :
    WFS (AddEntryToList l s k v) := by
  constructor
  · rw [AddEntry_names]
    by_cases hm : s ∈ l.map IniSection.name
    · rw [if_pos hm]; exact h.1
    · rw [if_neg hm]
      simp [List.nodup_append, h.1, hm]
  · intro sec' hm
    rcases AddEntry_cases l s k v sec' hm with hc | hc | ⟨sec, hms, _, he⟩
    · exact h.2 sec' hc
    · subst hc
      exact ⟨List.cons_ne_nil _ _, List.nodup_singleton _⟩
    · subst he
      exact ⟨addKey_ne_nil _ _ _, addKey_keys_nodup (h.2 sec hms).2 k v⟩

theorem wfKey_addKey {m : List KeyVal} (h : ∀ kv ∈ m, wfKey kv.1 ∧ wfVal kv.2)
    {k v : Str} (hk : wfKey k) (hv : wfVal v) :
    ∀ kv ∈ addKeyToMembers m k v, wfKey kv.1 ∧ wfVal kv.2 := by
  induction m with
  | nil =>
    intro kv hm
    rcases List.mem_singleton.1 hm with rfl
    exact ⟨hk, hv⟩
  | cons kv0 tl ih =>
    intro kv hm
    cases kv0 with
    | mk k0 v0 =>
      by_cases hkk : k = k0
      · rw [addKeyToMembers, if_pos hkk] at hm
        rcases hm with _ | ⟨_, hm⟩
        · exact ⟨(h (k0, v0) (List.mem_cons_self _ _)).1, hv⟩
        · exact h _ (List.mem_cons_of_mem _ hm)
      · rw [addKeyToMembers, if_neg hkk] at hm
        rcases hm with _ | ⟨_, hm⟩
        · exact h _ (List.mem_cons_self _ _)
        · exact ih (fun kv2 hm2 => h kv2 (List.mem_cons_of_mem _ hm2)) kv hm

theorem wfStore_AddEntry {l : IniList} (h : wfStore l) {s k v : Str}
    (hs : wfSec s) (hk : wfKey k) (hv : wfVal v) :
    wfStore (AddEntryToList l s k v) := by
  intro sec' hm
  rcases AddEntry_cases l s k v sec' hm with hc | hc | ⟨sec, hms, hn, he⟩
  · exact h sec' hc
  · subst hc
    refine ⟨hs, ?_⟩
    intro kv hkv
    rcases List.mem_singleton.1 hkv with rfl
    exact ⟨hk, hv⟩
  · subst he
    exact ⟨hs, wfKey_addKey (h sec hms).2 hk hv⟩

/-! ### Membership in the flattened entries vs. lookup -/

theorem mem_lookupKey {m : List KeyVal} (h : (m.map Prod.fst).Nodup) (k v : Str) :
    (k, v) ∈ m ↔ lookupKey m k = some v := by
  induction m with
  | nil => simp [lookupKey]
  | cons kv0 tl ih =>
    cases kv0 with
    | mk k0 v0 =>
      simp only [List.map_cons, List.nodup_cons] at h
      by_cases hk : k = k0
      · subst hk
        rw [lookupKey, if_pos rfl]
        constructor
        · intro hmem
          rcases List.mem_cons.1 hmem with heq | hm
          · have h2 : v = v0 := by simpa using heq
            rw [h2]
          · exact absurd (List.mem_map_of_mem Prod.fst hm) h.1
        · intro hv2
          injection hv2 with hveq
          rw [← hveq]
          exact List.mem_cons_self _ _
      · rw [lookupKey, if_neg hk]
        rw [← ih h.2]
        constructor
        · intro hmem
          rcases List.mem_cons.1 hmem with heq | hm
          · exact absurd (congrArg Prod.fst heq) hk
          · exact hm
        · exact fun hm => List.mem_cons_of_mem _ hm

theorem mem_entries_name {st : IniList} {σ k v : Str}
    (h : (σ, k, v) ∈ entriesOfList st) : σ ∈ st.map IniSection.name := by
  induction st with
  | nil => simp [entriesOfList] at h
  | cons sec tl ih =>
    rw [entriesOfList] at h
    rcases List.mem_append.1 h with hm | hm
    · rcases List.mem_map.1 hm with ⟨kv, _, heq⟩
      simp only [Prod.mk.injEq] at heq
      simp [← heq.1]
    · exact List.mem_cons_of_mem _ (ih hm)

theorem mem_entries_iff_lookup {st : IniList} (h : WFS st) (σ k v : Str) :
    (σ, k, v) ∈ entriesOfList st ↔ storeLookup st σ k = some v := by
  induction st with
  | nil => simp [entriesOfList, storeLookup]
  | cons sec tl ih =>
    have hnames : sec.name ∉ tl.map IniSection.name := by
      have := h.1
      simp only [List.map_cons, List.nodup_cons] at this
      exact this.1
    have htl : WFS tl := by
      refine ⟨?_, fun s hm => h.2 s (List.mem_cons_of_mem _ hm)⟩
      have := h.1
      simp only [List.map_cons, List.nodup_cons] at this
      exact this.2
    rw [entriesOfList, storeLookup]
    by_cases hσ : σ = sec.name
    · subst hσ
      rw [if_pos rfl]
      rw [← mem_lookupKey (h.2 sec (List.mem_cons_self _ _)).2 k v]
      constructor
      · intro hm
        rcases List.mem_append.1 hm with hm | hm
        · rcases List.mem_map.1 hm with ⟨kv, hkv, heq⟩
          simp only [Prod.mk.injEq] at heq
          rcases heq with ⟨_, h2, h3⟩
          rw [← h2, ← h3]
          exact hkv
        · exact absurd (mem_entries_name hm) hnames
      · intro hm
        exact List.mem_append.2 (Or.inl (List.mem_map.2 ⟨(k, v), hm, rfl⟩))
    · rw [if_neg hσ, ← ih htl]
      constructor
      · intro hm
        rcases List.mem_append.1 hm with hm | hm
        · rcases List.mem_map.1 hm with ⟨kv, _, heq⟩
          simp only [Prod.mk.injEq] at heq
          exact absurd heq.1.symm hσ
        · exact hm
      · intro hm
        exact List.mem_append.2 (Or.inr hm)

theorem entries_pairs_nodup {st : IniList} (h : WFS st) :
    ((entriesOfList st).map (fun t => (t.1, t.2.1))).Nodup := by
  induction st with
  | nil => simp [entriesOfList]
  | cons sec tl ih =>
    have hnames : sec.name ∉ tl.map IniSection.name := by
      have := h.1
      simp only [List.map_cons, List.nodup_cons] at this
      exact this.1
    have htl : WFS tl := by
      refine ⟨?_, fun s hm => h.2 s (List.mem_cons_of_mem _ hm)⟩
      have := h.1
      simp only [List.map_cons, List.nodup_cons] at this
      exact this.2
    have hkeys := (h.2 sec (List.mem_cons_self _ _)).2
    rw [entriesOfList, List.map_append, List.nodup_append]
    refine ⟨?_, ih htl, ?_⟩
    · rw [List.map_map]
      rw [show ((fun t : Str × Str × Str => (t.1, t.2.1)) ∘
          (fun kv : KeyVal => (sec.name, kv.1, kv.2)))
        = (fun k : Str => (sec.name, k)) ∘ Prod.fst from rfl]
      rw [← List.map_map]
      have hinj : Function.Injective (fun k : Str => (sec.name, k)) := by
        intro a b hab
        simpa using hab
      exact hkeys.map hinj
    · intro p hp hq
      rcases List.mem_map.1 hp with ⟨e2, hme2, heqp⟩
      rcases List.mem_map.1 hq with ⟨t, hmt, heqq⟩
      rcases List.mem_map.1 hme2 with ⟨kv, _, heqkv⟩
      have h1 : p.1 = sec.name := by rw [← heqp, ← heqkv]
      obtain ⟨σ, k2, v2⟩ := t
      have h2 : p.1 = σ := by rw [← heqq]
      have h3 : sec.name = σ := h1.symm.trans h2
      apply hnames
      rw [h3]
      exact mem_entries_name hmt

theorem filter_eq_singleton_of_nodup {α β : Type} [DecidableEq β] (f : α → β) :
    ∀ (l : List α), (l.map f).Nodup → ∀ x ∈ l, l.filter (fun y => decide (f y = f x)) = [x] := by
  intro l
  induction l with
  | nil => intro _ x hx; simp at hx
  | cons a tl ih =>
    intro h x hx
    simp only [List.map_cons, List.nodup_cons] at h
    rcases List.mem_cons.1 hx with rfl | hx
    · rw [List.filter_cons, if_pos (by simp)]
      have : tl.filter (fun y => decide (f y = f x)) = [] := by
        rw [List.filter_eq_nil_iff]
        intro b hb
        simp only [decide_eq_true_eq]
        intro heq
        exact h.1 (heq ▸ List.mem_map_of_mem f hb)
      rw [this]
    · have hne : f a ≠ f x := by
        intro heq
        exact h.1 (heq ▸ List.mem_map_of_mem f hx)
      rw [List.filter_cons, if_neg (by simpa using hne)]
      exact ih h.2 x hx

/-! ### Traversal order: first-insertion order of sections and keys -/

/-- The distinct elements of a list, each at its first occurrence, in
order of first occurrence. -/
def firstDedup (l : List Str) : List Str :=
  l.foldl (fun acc x => if x ∈ acc then acc else acc ++ [x]) []

/-- The member list of the first section named `σ` (empty if none). -/
def sectionMembers : IniList → Str → List KeyVal
  | [], _ => []
  | sec :: tl, σ => if σ = sec.name then sec.members else sectionMembers tl σ

theorem sectionMembers_AddEntry_self (l : IniList) (s k v : Str) :
    sectionMembers (AddEntryToList l s k v) s = addKeyToMembers (sectionMembers l s) k v := by
  induction l with
  | nil => simp [AddEntryToList, sectionMembers, addKeyToMembers]
  | cons sec tl ih =>
    by_cases hs : s = sec.name
    · rw [AddEntryToList, if_pos hs]
      simp [sectionMembers, hs]
    · rw [AddEntryToList, if_neg hs]
      simp [sectionMembers, hs, ih]

theorem sectionMembers_AddEntry_other (l : IniList) (s k v σ : Str) (h : σ ≠ s) :
    sectionMembers (AddEntryToList l s k v) σ = sectionMembers l σ := by
  induction l with
  | nil => simp [AddEntryToList, sectionMembers, h]
  | cons sec tl ih =>
    by_cases hs : s = sec.name
    · rw [AddEntryToList, if_pos hs]
      have hσ : σ ≠ sec.name := fun hh => h (hh.trans hs.symm)
      simp [sectionMembers, hσ]
    · rw [AddEntryToList, if_neg hs]
      by_cases hσ : σ = sec.name
      · simp [sectionMembers, hσ]
      · simp [sectionMembers, hσ, ih]

theorem names_foldTriples (ts : List (Str × Str × Str)) :
    ∀ init : IniList,
      (foldTriples init ts).map IniSection.name =
        ts.foldl (fun acc t => if t.1 ∈ acc then acc else acc ++ [t.1])
          (init.map IniSection.name) := by
  induction ts with
  | nil => intro init; rfl
  | cons t tl ih =>
    intro init
    rw [show foldTriples init (t :: tl) = foldTriples (AddEntryToList init t.1 t.2.1 t.2.2) tl
      from rfl]
    rw [ih, AddEntry_names]
    rfl

theorem names_loadOps (ops : List (Str × Str × Str)) :
    (loadOps ops).map IniSection.name = firstDedup (ops.map (fun t => t.1)) := by
  rw [loadOps_eq_foldTriples, names_foldTriples, firstDedup, List.foldl_map]
  rfl

theorem sectionKeys_foldTriples (ts : List (Str × Str × Str)) :
    ∀ (init : IniList) (σ : Str),
      (sectionMembers (foldTriples init ts) σ).map Prod.fst =
        (ts.filter (fun t => decide (t.1 = σ))).foldl
          (fun acc t => if t.2.1 ∈ acc then acc else acc ++ [t.2.1])
          ((sectionMembers init σ).map Prod.fst) := by
  induction ts with
  | nil => intro init σ; rfl
  | cons t tl ih =>
    intro init σ
    rw [show foldTriples init (t :: tl) = foldTriples (AddEntryToList init t.1 t.2.1 t.2.2) tl
      from rfl]
    rw [ih, List.filter_cons]
    by_cases hσ : t.1 = σ
    · rw [if_pos (by simpa using hσ)]
      subst hσ
      rw [sectionMembers_AddEntry_self init t.1 t.2.1 t.2.2, addKey_keys]
      rfl
    · rw [if_neg (by simpa using hσ)]
      rw [sectionMembers_AddEntry_other init t.1 t.2.1 t.2.2 σ (fun hh => hσ hh.symm)]

theorem sectionMembers_of_mem {l : IniList} (hnd : (l.map IniSection.name).Nodup)
    {sec : IniSection} (hm : sec ∈ l) : sectionMembers l sec.name = sec.members := by
  induction l with
  | nil => simp at hm
  | cons sec0 tl ih =>
    simp only [List.map_cons, List.nodup_cons] at hnd
    rcases List.mem_cons.1 hm with rfl | hm
    · simp [sectionMembers]
    · have hne : sec.name ≠ sec0.name := by
        intro heq
        exact hnd.1 (heq ▸ List.mem_map_of_mem IniSection.name hm)
      rw [sectionMembers, if_neg hne]
      exact ih hnd.2 hm

/-! ### The fold invariants -/

theorem WFS_nil : WFS [] := ⟨List.nodup_nil, fun _ hm => absurd hm (List.not_mem_nil _)⟩

theorem WFS_foldTriples (ts : List (Str × Str × Str)) :
    ∀ init : IniList, WFS init → WFS (foldTriples init ts) := by
  induction ts with
  | nil => intro init h; exact h
  | cons t tl ih =>
    intro init h
    exact ih (AddEntryToList init t.1 t.2.1 t.2.2) (WFS_AddEntry h t.1 t.2.1 t.2.2)

theorem wfStore_foldTriples (ts : List (Str × Str × Str))
    (hts : ∀ t ∈ ts, wfSec t.1 ∧ wfKey t.2.1 ∧ wfVal t.2.2) :
    ∀ init : IniList, wfStore init → wfStore (foldTriples init ts) := by
  induction ts with
  | nil => intro init h; exact h
  | cons t tl ih =>
    intro init h
    have ht := hts t (List.mem_cons_self _ _)
    exact ih (fun t2 hm => hts t2 (List.mem_cons_of_mem _ hm)) _
      (wfStore_AddEntry h ht.1 ht.2.1 ht.2.2)

theorem foldTriples_ne_nil (ts : List (Str × Str × Str)) :
    ∀ init : IniList, init ≠ [] → foldTriples init ts ≠ [] := by
  induction ts with
  | nil => intro init h; exact h
  | cons t tl ih =>
    intro init _
    exact ih _ (AddEntry_ne_nil init t.1 t.2.1 t.2.2)

/-! ### `lastAssoc` versus membership, for duplicate-free triple lists -/

theorem mem_pair_unique {ts : List (Str × Str × Str)}
    (h : (ts.map (fun t => (t.1, t.2.1))).Nodup) {σ k v v2 : Str}
    (h1 : (σ, k, v) ∈ ts) (h2 : (σ, k, v2) ∈ ts) : v = v2 := by
  have hf := filter_eq_singleton_of_nodup (fun t => (t.1, t.2.1)) ts h _ h2
  have hmem : (σ, k, v) ∈ ts.filter
      (fun y => decide ((y.1, y.2.1)
        = (((σ, k, v2) : Str × Str × Str).1, ((σ, k, v2) : Str × Str × Str).2.1))) := by
    rw [List.mem_filter]
    exact ⟨h1, by simp⟩
  rw [hf] at hmem
  have := List.mem_singleton.1 hmem
  simpa using this

theorem lastAssoc_eq_some :
    ∀ ts : List (Str × Str × Str), (ts.map (fun t => (t.1, t.2.1))).Nodup →
      ∀ σ k v : Str, (lastAssoc ts σ k = some v ↔ (σ, k, v) ∈ ts) := by
  intro ts
  induction ts with
  | nil => intro _ σ k v; simp [lastAssoc]
  | cons t tl ih =>
    intro h σ k v
    simp only [List.map_cons, List.nodup_cons] at h
    rw [lastAssoc]
    cases hla : lastAssoc tl σ k with
    | some v2 =>
      show some v2 = some v ↔ (σ, k, v) ∈ t :: tl
      have hla2 := (ih h.2 σ k v2).1 hla
      constructor
      · intro heq
        injection heq with heq
        exact List.mem_cons_of_mem _ (heq ▸ hla2)
      · intro hm
        rcases List.mem_cons.1 hm with heq2 | hm
        · have hp := List.mem_map_of_mem (fun t => (t.1, t.2.1)) hla2
          rw [← heq2] at h
          exact absurd hp h.1
        · rw [mem_pair_unique h.2 hla2 hm]
    | none =>
      show (if t.1 = σ ∧ t.2.1 = k then some t.2.2 else none) = some v ↔ (σ, k, v) ∈ t :: tl
      by_cases hcond : t.1 = σ ∧ t.2.1 = k
      · rw [if_pos hcond]
        constructor
        · intro heq
          injection heq with heq
          have ht : t = (σ, k, v) := by
            obtain ⟨t1, t2, t3⟩ := t
            simp only at hcond heq
            rw [hcond.1, hcond.2, heq]
          rw [ht]
          exact List.mem_cons_self _ _
        · intro hmem
          rcases List.mem_cons.1 hmem with heq2 | hmem
          · rw [← heq2]
          · have := (ih h.2 σ k v).2 hmem
            rw [this] at hla
            exact absurd hla (by simp)
      · rw [if_neg hcond]
        constructor
        · intro heq; exact absurd heq (by simp)
        · intro hmem
          rcases List.mem_cons.1 hmem with heq2 | hmem
          · exact absurd ⟨by rw [← heq2], by rw [← heq2]⟩ hcond
          · have := (ih h.2 σ k v).2 hmem
            rw [this] at hla
            exact absurd hla (by simp)

/-- For a well-formed store, the last-wins association over its
flattened entries agrees with the store lookup. -/
theorem lastAssoc_entries {st : IniList} (h : WFS st) (σ k : Str) :
    lastAssoc (entriesOfList st) σ k = storeLookup st σ k := by
  cases hx : storeLookup st σ k with
  | some v =>
    exact (lastAssoc_eq_some _ (entries_pairs_nodup h) σ k v).2
      ((mem_entries_iff_lookup h σ k v).2 hx)
  | none =>
    cases hy : lastAssoc (entriesOfList st) σ k with
    | none => rfl
    | some v =>
      have := (lastAssoc_eq_some _ (entries_pairs_nodup h) σ k v).1 hy
      rw [(mem_entries_iff_lookup h σ k v).1 this] at hx
      exact absurd hx (by simp)

/-! ### Glue: the file operations in terms of the fold lemmas -/

/-- The fully-non-NULL triple a (section, key, value) triple presents
as through the entry structure. -/
def someTriple (t : Str × Str × Str) : Triple := (some t.1, some t.2.1, some t.2.2)

theorem mem_someTriples (st : IniList) (σ k v : Str) :
    someTriple (σ, k, v) ∈ someTriples st ↔ (σ, k, v) ∈ entriesOfList st := by
  induction st with
  | nil => simp [someTriples, entriesOfList]
  | cons sec tl ih =>
    rw [someTriples, entriesOfList]
    rw [List.mem_append, List.mem_append, ih]
    constructor
    · rintro (hm | hm)
      · rcases List.mem_map.1 hm with ⟨kv, hkv, heq⟩
        simp only [someTriple, Prod.mk.injEq, Option.some.injEq] at heq
        left
        refine List.mem_map.2 ⟨kv, hkv, ?_⟩
        rw [heq.1, heq.2.1, heq.2.2]
      · right; exact hm
    · rintro (hm | hm)
      · rcases List.mem_map.1 hm with ⟨kv, hkv, heq⟩
        simp only [Prod.mk.injEq] at heq
        left
        refine List.mem_map.2 ⟨kv, hkv, ?_⟩
        simp [someTriple, heq.1, heq.2.1, heq.2.2]
      · right; exact hm

theorem wfStore_nil : wfStore [] := fun _ hm => absurd hm (List.not_mem_nil _)

theorem entries_wf {l : IniList} (h : wfStore l) :
    ∀ t ∈ entriesOfList l, wfSec t.1 ∧ wfKey t.2.1 ∧ wfVal t.2.2 := by
  induction l with
  | nil => intro t hm; simp [entriesOfList] at hm
  | cons sec tl ih =>
    intro t hm
    rw [entriesOfList] at hm
    rcases List.mem_append.1 hm with hm | hm
    · rcases List.mem_map.1 hm with ⟨kv, hkv, heq⟩
      have hsec := h sec (List.mem_cons_self _ _)
      have hkv2 := hsec.2 kv hkv
      rw [← heq]
      exact ⟨hsec.1, hkv2.1, hkv2.2⟩
    · exact ih (fun s hs => h s (List.mem_cons_of_mem _ hs)) t hm

theorem entriesOfList_ne_nil {l : IniList} (hne : l ≠ []) (h : WFS l) :
    entriesOfList l ≠ [] := by
  cases l with
  | nil => exact absurd rfl hne
  | cons sec tl =>
    rw [entriesOfList]
    have hm := (h.2 sec (List.mem_cons_self _ _)).1
    intro hc
    rcases List.append_eq_nil.1 hc with ⟨h1, _⟩
    exact hm (List.map_eq_nil_iff.1 h1)

theorem foldTriples_ne_nil_of_ts {ts : List (Str × Str × Str)} (hne : ts ≠ [])
    (init : IniList) : foldTriples init ts ≠ [] := by
  cases ts with
  | nil => exact absurd rfl hne
  | cons t tl =>
    rw [show foldTriples init (t :: tl) = foldTriples (AddEntryToList init t.1 t.2.1 t.2.2) tl
      from rfl]
    exact foldTriples_ne_nil tl _ (AddEntry_ne_nil init t.1 t.2.1 t.2.2)

theorem mergeListInto_eq_foldTriples (L : IniList) :
    ∀ base : IniList, mergeListInto base L = foldTriples base (entriesOfList L) := by
  induction L with
  | nil => intro base; rfl
  | cons sec tl ih =>
    intro base
    rw [show mergeListInto base (sec :: tl)
      = mergeListInto (sec.members.foldl
          (fun acc2 kv => AddEntryToList acc2 sec.name kv.1 kv.2) base) tl from rfl]
    rw [ih]
    show List.foldl (fun acc t => AddEntryToList acc t.1 t.2.1 t.2.2)
        (List.foldl (fun acc2 kv => AddEntryToList acc2 sec.name kv.1 kv.2) base sec.members)
        (entriesOfList tl)
      = List.foldl (fun acc t => AddEntryToList acc t.1 t.2.1 t.2.2) base
          (List.map (fun kv => (sec.name, kv.1, kv.2)) sec.members ++ entriesOfList tl)
    rw [List.foldl_append, List.foldl_map]

theorem loadTriples_map_someTriple (ts : List (Str × Str × Str)) :
    loadTriples (ts.map someTriple) = foldTriples [] ts := by
  rw [loadTriples, List.foldl_map, foldTriples]
  rfl

/-! ## Remaining helpers for the claims -/

/-- Byte-wise `strcmp < 0`: true iff the first string is lexicographically
smaller, comparing character codes. -/
def strLtB : Str → Str → Bool
  | [], [] => false
  | [], _ :: _ => true
  | _ :: _, [] => false
  | a :: as, b :: bs => if a < b then true else if b < a then false else strLtB as bs

/-- Non-decreasing order on (section, key) pairs: first by section, then
by key, byte-wise. -/
def pairLE (p q : Str × Str) : Prop :=
  strLtB p.1 q.1 = true ∨ (p.1 = q.1 ∧ (strLtB p.2 q.2 = true ∨ p.2 = q.2))

instance (p q : Str × Str) : Decidable (pairLE p q) := by unfold pairLE; infer_instance

theorem getEntry_zero_freed : ∀ (ls : List Str) (e : IniEntry),
    (GetEntryFromLines ls e).1 = 0 → (GetEntryFromLines ls e).2.2 = FreeEntry := by
  intro ls
  induction ls with
  | nil => intro e _; rfl
  | cons line rest ih =>
    intro e h
    cases hs : SkipWS line with
    | nil =>
      simp only [GetEntryFromLines, hs] at h ⊢
      exact ih e h
    | cons c cs =>
      simp only [GetEntryFromLines, hs] at h ⊢
      by_cases hsc : c = ';' ∨ c = '#'
      · rw [if_pos hsc] at h ⊢
        exact ih e h
      · rw [if_neg hsc] at h ⊢
        by_cases hbr : c = '['
        · rw [if_pos hbr] at h ⊢
          cases hps : parseSection cs with
          | none => rw [hps] at h
          | some s2 =>
            rw [hps] at h
            exact ih _ h
        · rw [if_neg hbr] at h ⊢
          cases hpk : parseKeyValue (c :: cs) with
          | none => rw [hpk] at h
          | some kv => rw [hpk] at h; simp at h


/-! ## The claims -/

/-- C1: for every sequence of successful `AddEntryToList` calls starting
from an empty (NULL) list, the store never contains two entries with the
same (section, key) pair, and after a successful
`AddEntryToList(list, S, K, V)` the store contains exactly one entry for
(S, K), whose value is V. -/
theorem claim_C1_insert_unique (ops : List (Str × Str × Str)) (S K V : Str) :
    ((entriesOfList (loadOps ops)).map (fun t => (t.1, t.2.1))).Nodup ∧
    (entriesOfList (AddEntryToList (loadOps ops) S K V)).filter
        (fun t => decide (t.1 = S ∧ t.2.1 = K)) = [(S, K, V)] := by
  have hwfs : WFS (loadOps ops) := WFS_foldTriples ops [] WFS_nil
  constructor
  · exact entries_pairs_nodup hwfs
  · have hwfs' := WFS_AddEntry hwfs S K V
    have hmem : (S, K, V) ∈ entriesOfList (AddEntryToList (loadOps ops) S K V) :=
      (mem_entries_iff_lookup hwfs' S K V).2 (storeLookup_add_self _ S K V)
    have hfil := filter_eq_singleton_of_nodup (fun t => (t.1, t.2.1)) _
      (entries_pairs_nodup hwfs') _ hmem
    have hconv : ∀ t ∈ entriesOfList (AddEntryToList (loadOps ops) S K V),
        (decide (t.1 = S ∧ t.2.1 = K))
          = decide ((fun t : Str × Str × Str => (t.1, t.2.1)) t
              = (fun t : Str × Str × Str => (t.1, t.2.1)) (S, K, V)) := by
      intro t _
      apply decide_eq_decide.2
      simp [Prod.ext_iff]
    rw [List.filter_congr hconv]
    exact hfil

/-- C2 counterexample: the round trip is not the identity on arbitrary
field strings.  The store holding value `" v"` (leading space)
serializes to `"k =  v"`, which parses back with value `"v"`: the
re-parsed triples are not the store's triples, in any order. -/
theorem claim_C2_counterexample :
    MakeINIFile [⟨"a".toList, [("k".toList, " v".toList)]⟩]
        = some "[a]\nk =  v\n\n".toList ∧
    ParseFile "[a]\nk =  v\n\n".toList
        = some [(some "a".toList, some "k".toList, some "v".toList)] ∧
    someTriples [⟨"a".toList, [("k".toList, " v".toList)]⟩]
        = [(some "a".toList, some "k".toList, some " v".toList)] ∧
    ¬ ([((some "a".toList, some "k".toList, some "v".toList) : Triple)]
        = [((some "a".toList, some "k".toList, some " v".toList) : Triple)]
       ∨ [((some "a".toList, some "k".toList, some "v".toList) : Triple)].Perm
          [((some "a".toList, some "k".toList, some " v".toList) : Triple)]) := by
  refine ⟨by decide, by decide, by decide, ?_⟩
  rintro (h | h)
  · exact absurd h (by decide)
  · exact absurd (List.perm_singleton.1 h) (by decide)

/-- C2 (amended): for every store whose section names, keys and values
are representable in the INI text format — sections with no `']'`, no
newline and no surrounding whitespace; keys nonempty with no `'='`, no
newline, no surrounding whitespace and no leading `'['`/`';'`/`'#'`;
values with no newline, no leading space/tab and no trailing whitespace —
serializing with `MakeINIFile` and re-parsing with repeated
`GetEntryFromFile` yields exactly the store's (section, key, value)
triples, in traversal order (hence also order-insensitively). -/
theorem claim_C2_roundtrip_wf (l : IniList) (text : Str) (hwf : wfStore l)
    (hmk : MakeINIFile l = some text) :
    ParseFile text = some (someTriples l) := by
  rw [MakeINIFile] at hmk
  by_cases hl : l = []
  · rw [if_pos hl] at hmk
    exact absurd hmk (by simp)
  · rw [if_neg hl] at hmk
    injection hmk with hmk
    rw [← hmk]
    exact ParseFile_iniText hwf

theorem claim_C2_witness :
    wfStore [⟨"s1".toList, [("k".toList, "v".toList)]⟩] ∧
    MakeINIFile [⟨"s1".toList, [("k".toList, "v".toList)]⟩] = some "[s1]\nk = v\n\n".toList ∧
    ParseFile "[s1]\nk = v\n\n".toList
      = some (someTriples [⟨"s1".toList, [("k".toList, "v".toList)]⟩]) :=
  ⟨by decide, by decide,
    claim_C2_roundtrip_wf [⟨"s1".toList, [("k".toList, "v".toList)]⟩]
      "[s1]\nk = v\n\n".toList (by decide) (by decide)⟩

/-- C3: `GetEntryFromFile` returns -1 on `"[section"` (no closing
bracket) and on `"keynoequals"` (no `'='`); but on `"key = "` (value
empty after trimming) it does NOT return -1: the intended
empty-value check (ezini.c lines 700-706) is inside a loop whose
condition excludes the terminator, so it is unreachable, and the call
returns 1 with the empty string as the value. -/
theorem claim_C3_malformed :
    GetEntryFromFile "[section".toList FreeEntry = (-1, [], FreeEntry) ∧
    GetEntryFromFile "keynoequals".toList FreeEntry = (-1, [], FreeEntry) ∧
    GetEntryFromFile "[s]\nkey = ".toList FreeEntry
      = (1, [], ⟨some "s".toList, some "key".toList, some []⟩) := by
  refine ⟨by decide, by decide, by decide⟩

/-- C4 counterexample: a key/value line before any section header is NOT
rejected.  `GetEntryFromFile` on the stream `"k = v"` with a zeroed
entry returns 1 (an entry, not an error) and leaves the entry's section
NULL. -/
theorem claim_C4_counterexample :
    GetEntryFromFile "k = v".toList FreeEntry
      = (1, [], ⟨none, some "k".toList, some "v".toList⟩) ∧
    ((1 : Int) ≠ -1) := by
  refine ⟨by decide, by decide⟩

/-- C4 (amended): when the first non-blank, non-comment line of the
stream is a well-formed `key = value` line and no section header has
been seen (the entry's section field is NULL), `GetEntryFromFile`
accepts the line: it returns 1 and yields the entry with its section
still NULL.  No malformed-entry error is reported. -/
theorem claim_C4_no_section_entry (k v rest : Str) (e : IniEntry)
    (hk : wfKey k) (hv : wfVal v) (hsec : e.sec = none) :
    GetEntryFromFile ((k ++ ' ' :: '=' :: ' ' :: v) ++ '\n' :: rest) e
      = (1, linesOf rest, { e with key := some k, value := some v })
    ∧ ({ e with key := some k, value := some v } : IniEntry).sec = none := by
  constructor
  · rw [GetEntryFromFile]
    have hnl : '\n' ∉ (k ++ ' ' :: '=' :: ' ' :: v : Str) :=
      @no_newline_kvLine (k, v) hk hv
    rw [linesOf_append _ _ hnl, getEntry_step_kv hk hv]
  · exact hsec

theorem claim_C4_witness :
    GetEntryFromFile (("k".toList ++ ' ' :: '=' :: ' ' :: "v".toList) ++ '\n' :: [])
        ⟨none, some "old".toList, none⟩
      = (1, linesOf [],
          { (⟨none, some "old".toList, none⟩ : IniEntry) with
              key := some "k".toList, value := some "v".toList })
    ∧ ({ (⟨none, some "old".toList, none⟩ : IniEntry) with
          key := some "k".toList, value := some "v".toList } : IniEntry).sec = none :=
  claim_C4_no_section_entry "k".toList "v".toList [] ⟨none, some "old".toList, none⟩
    (by decide) (by decide) rfl

/-- C5 counterexample: when the existing file holds two entries with the
same (section, key) — here `x = 1` and then `x = 2` in section A —
`AddEntryToFile` does not keep them both: the working store deduplicates
with last-wins, so the entry `(A, x, 1)`, whose pair is not touched by
the merged list, is absent from the rewritten file. -/
theorem claim_C5_counterexample :
    ParseFile "[A]\nx = 1\nx = 2\n".toList
      = some [someTriple ("A".toList, "x".toList, "1".toList),
              someTriple ("A".toList, "x".toList, "2".toList)] ∧
    AddEntryToFile "[A]\nx = 1\nx = 2\n".toList [⟨"C".toList, [("z".toList, "5".toList)]⟩]
      = some "[A]\nx = 2\n\n[C]\nz = 5\n\n".toList ∧
    ParseFile "[A]\nx = 2\n\n[C]\nz = 5\n\n".toList
      = some [someTriple ("A".toList, "x".toList, "2".toList),
              someTriple ("C".toList, "z".toList, "5".toList)] ∧
    someTriple ("A".toList, "x".toList, "1".toList)
      ∉ [someTriple ("A".toList, "x".toList, "2".toList),
         someTriple ("C".toList, "z".toList, "5".toList)] := by
  refine ⟨by decide, by decide, by decide, by decide⟩

/-- C5 (amended): provided the existing file parses into triples with
unique (section, key) pairs whose fields are representable INI strings,
and the merged list is a nonempty well-formed store, `AddEntryToFile`
rewrites the file so that its entries are exactly: every entry of the
list, together with every entry of the original file whose (section, key)
is not overridden by the list — the list's value winning on conflicts. -/
theorem claim_C5_merge (text : Str) (L : IniList) (ts₀ : List (Str × Str × Str))
    (hparse : ParseFile text = some (ts₀.map someTriple))
    (hts_wf : ∀ t ∈ ts₀, wfSec t.1 ∧ wfKey t.2.1 ∧ wfVal t.2.2)
    (hts_nd : (ts₀.map (fun t => (t.1, t.2.1))).Nodup)
    (hL : L ≠ []) (hLwfs : WFS L) (hLwf : wfStore L) :
    ∃ text' : Str, AddEntryToFile text L = some text' ∧
      ∃ ts' : List Triple, ParseFile text' = some ts' ∧
        ∀ σ k v : Str, someTriple (σ, k, v) ∈ ts' ↔
          (storeLookup L σ k = some v ∨
            (storeLookup L σ k = none ∧ (σ, k, v) ∈ ts₀)) := by
  have hmergedEq : mergeListInto (loadTriples (ts₀.map someTriple)) L
      = foldTriples (foldTriples [] ts₀) (entriesOfList L) := by
    rw [loadTriples_map_someTriple, mergeListInto_eq_foldTriples]
  have hMwfs : WFS (foldTriples (foldTriples [] ts₀) (entriesOfList L)) :=
    WFS_foldTriples _ _ (WFS_foldTriples _ _ WFS_nil)
  have hMwf : wfStore (foldTriples (foldTriples [] ts₀) (entriesOfList L)) :=
    wfStore_foldTriples _ (entries_wf hLwf) _ (wfStore_foldTriples _ hts_wf _ wfStore_nil)
  have hMne : foldTriples (foldTriples [] ts₀) (entriesOfList L) ≠ [] :=
    foldTriples_ne_nil_of_ts (entriesOfList_ne_nil hL hLwfs) _
  refine ⟨iniText (foldTriples (foldTriples [] ts₀) (entriesOfList L)), ?_,
    someTriples (foldTriples (foldTriples [] ts₀) (entriesOfList L)),
    ParseFile_iniText hMwf, ?_⟩
  · rw [AddEntryToFile, if_neg hL, hparse]
    show MakeINIFile (mergeListInto (loadTriples (ts₀.map someTriple)) L)
      = some (iniText (foldTriples (foldTriples [] ts₀) (entriesOfList L)))
    rw [hmergedEq, MakeINIFile, if_neg hMne]
  · intro σ k v
    rw [mem_someTriples, mem_entries_iff_lookup hMwfs]
    rw [storeLookup_foldTriples, lastAssoc_entries hLwfs, storeLookup_foldTriples]
    cases hSL : storeLookup L σ k with
    | some w =>
      show some w = some v ↔ _
      constructor
      · intro h; exact Or.inl h
      · rintro (h | ⟨hnone, _⟩)
        · exact h
        · exact absurd hnone (by simp)
    | none =>
      cases hLA : lastAssoc ts₀ σ k with
      | some w =>
        show some w = some v ↔ _
        have hmemw := (lastAssoc_eq_some ts₀ hts_nd σ k w).1 hLA
        constructor
        · intro h
          injection h with h
          right
          exact ⟨rfl, h ▸ hmemw⟩
        · rintro (h | ⟨_, hmem⟩)
          · exact absurd h (by simp)
          · rw [mem_pair_unique hts_nd hmemw hmem]
      | none =>
        show storeLookup ([] : IniList) σ k = some v ↔ _
        constructor
        · intro h
          exact absurd h (by simp [storeLookup])
        · rintro (h | ⟨_, hmem⟩)
          · exact absurd h (by simp)
          · have := (lastAssoc_eq_some ts₀ hts_nd σ k v).2 hmem
            rw [this] at hLA
            exact absurd hLA (by simp)

theorem claim_C5_witness :
    ∃ text' : Str,
      AddEntryToFile "[A]\nx = 1\n".toList
          [⟨"A".toList, [("x".toList, "9".toList)]⟩,
           ⟨"C".toList, [("z".toList, "5".toList)]⟩] = some text' ∧
      ∃ ts' : List Triple, ParseFile text' = some ts' ∧
        ∀ σ k v : Str, someTriple (σ, k, v) ∈ ts' ↔
          (storeLookup [⟨"A".toList, [("x".toList, "9".toList)]⟩,
              ⟨"C".toList, [("z".toList, "5".toList)]⟩] σ k = some v ∨
            (storeLookup [⟨"A".toList, [("x".toList, "9".toList)]⟩,
                ⟨"C".toList, [("z".toList, "5".toList)]⟩] σ k = none ∧
              (σ, k, v) ∈ [("A".toList, "x".toList, "1".toList)])) :=
  claim_C5_merge "[A]\nx = 1\n".toList
    [⟨"A".toList, [("x".toList, "9".toList)]⟩, ⟨"C".toList, [("z".toList, "5".toList)]⟩]
    [("A".toList, "x".toList, "1".toList)]
    (by decide) (by decide) (by decide) (by decide) (by decide) (by decide)

theorem filter_map_someTriple (ts₀ : List (Str × Str × Str)) (S K : Str) :
    (ts₀.map someTriple).filter (fun t => decide (¬(t.1 = some S ∧ t.2.1 = some K)))
      = (ts₀.filter (fun t => decide (¬(t.1 = S ∧ t.2.1 = K)))).map someTriple := by
  rw [List.filter_map]
  congr 1
  apply List.filter_congr
  intro t _
  apply decide_eq_decide.2
  simp [someTriple]

/-- C6 counterexample: when the original file holds two entries with the
same (section, key) — `x = 1` then `x = 2` in section A — deleting an
unrelated pair (A, q) loses `(A, x, 1)` anyway: the working store
deduplicates with last-wins, so the rewritten file does not contain
exactly the non-matching entries of the original. -/
theorem claim_C6_counterexample :
    ParseFile "[A]\nx = 1\nx = 2\n".toList
      = some [someTriple ("A".toList, "x".toList, "1".toList),
              someTriple ("A".toList, "x".toList, "2".toList)] ∧
    DeleteEntryFromFile "[A]\nx = 1\nx = 2\n".toList "A".toList "q".toList
      = some "[A]\nx = 2\n\n".toList ∧
    ParseFile "[A]\nx = 2\n\n".toList
      = some [someTriple ("A".toList, "x".toList, "2".toList)] ∧
    ¬("A".toList = "A".toList ∧ "x".toList = "q".toList) ∧
    someTriple ("A".toList, "x".toList, "1".toList)
      ∉ [someTriple ("A".toList, "x".toList, "2".toList)] := by
  refine ⟨by decide, by decide, by decide, by decide, by decide⟩

/-- C6 (amended): provided the original file parses into triples with
unique (section, key) pairs whose fields are representable INI strings,
and at least one entry does not match the deleted pair, then
`DeleteEntryFromFile(path, S, K)` rewrites the file to contain exactly
those entries of the original whose (section, key) differs from (S, K) —
every matching entry is removed, not only the first. -/
theorem claim_C6_delete (text : Str) (S K : Str) (ts₀ : List (Str × Str × Str))
    (hparse : ParseFile text = some (ts₀.map someTriple))
    (hts_wf : ∀ t ∈ ts₀, wfSec t.1 ∧ wfKey t.2.1 ∧ wfVal t.2.2)
    (hts_nd : (ts₀.map (fun t => (t.1, t.2.1))).Nodup)
    (hne : ts₀.filter (fun t => decide (¬(t.1 = S ∧ t.2.1 = K))) ≠ []) :
    ∃ text' : Str, DeleteEntryFromFile text S K = some text' ∧
      ∃ ts' : List Triple, ParseFile text' = some ts' ∧
        ∀ σ k v : Str, someTriple (σ, k, v) ∈ ts' ↔
          ((σ, k, v) ∈ ts₀ ∧ ¬(σ = S ∧ k = K)) := by
  have hkept_wf : ∀ t ∈ ts₀.filter (fun t => decide (¬(t.1 = S ∧ t.2.1 = K))),
      wfSec t.1 ∧ wfKey t.2.1 ∧ wfVal t.2.2 :=
    fun t hm => hts_wf t (List.mem_of_mem_filter hm)
  have hkept_nd : ((ts₀.filter (fun t => decide (¬(t.1 = S ∧ t.2.1 = K)))).map
      (fun t => (t.1, t.2.1))).Nodup :=
    hts_nd.sublist ((List.filter_sublist _).map _)
  have hMwfs : WFS (foldTriples [] (ts₀.filter (fun t => decide (¬(t.1 = S ∧ t.2.1 = K))))) :=
    WFS_foldTriples _ _ WFS_nil
  have hMwf : wfStore (foldTriples [] (ts₀.filter (fun t => decide (¬(t.1 = S ∧ t.2.1 = K))))) :=
    wfStore_foldTriples _ hkept_wf _ wfStore_nil
  have hMne : foldTriples [] (ts₀.filter (fun t => decide (¬(t.1 = S ∧ t.2.1 = K)))) ≠ [] :=
    foldTriples_ne_nil_of_ts hne _
  refine ⟨iniText (foldTriples [] (ts₀.filter (fun t => decide (¬(t.1 = S ∧ t.2.1 = K))))), ?_,
    someTriples (foldTriples [] (ts₀.filter (fun t => decide (¬(t.1 = S ∧ t.2.1 = K))))),
    ParseFile_iniText hMwf, ?_⟩
  · rw [DeleteEntryFromFile, hparse]
    show MakeINIFile (loadTriples ((ts₀.map someTriple).filter
        (fun t => decide (¬(t.1 = some S ∧ t.2.1 = some K))))) = _
    rw [filter_map_someTriple, loadTriples_map_someTriple, MakeINIFile, if_neg hMne]
  · intro σ k v
    rw [mem_someTriples, mem_entries_iff_lookup hMwfs, storeLookup_foldTriples]
    cases hLA : lastAssoc (ts₀.filter (fun t => decide (¬(t.1 = S ∧ t.2.1 = K)))) σ k with
    | some w =>
      show some w = some v ↔ _
      have hmemw := (lastAssoc_eq_some _ hkept_nd σ k w).1 hLA
      have hmemw2 := List.mem_filter.1 hmemw
      constructor
      · intro h
        injection h with h
        subst h
        refine ⟨hmemw2.1, ?_⟩
        have := hmemw2.2
        simp only [decide_eq_true_eq] at this
        exact this
      · rintro ⟨hmem, hpair⟩
        have hmemf : (σ, k, v) ∈ ts₀.filter (fun t => decide (¬(t.1 = S ∧ t.2.1 = K))) :=
          List.mem_filter.2 ⟨hmem, by simp only [decide_eq_true_eq]; exact hpair⟩
        rw [mem_pair_unique hkept_nd hmemw hmemf]
    | none =>
      show storeLookup ([] : IniList) σ k = some v ↔ _
      constructor
      · intro h
        exact absurd h (by simp [storeLookup])
      · rintro ⟨hmem, hpair⟩
        have hmemf : (σ, k, v) ∈ ts₀.filter (fun t => decide (¬(t.1 = S ∧ t.2.1 = K))) :=
          List.mem_filter.2 ⟨hmem, by simp only [decide_eq_true_eq]; exact hpair⟩
        have := (lastAssoc_eq_some _ hkept_nd σ k v).2 hmemf
        rw [this] at hLA
        exact absurd hLA (by simp)

theorem claim_C6_witness :
    ∃ text' : Str,
      DeleteEntryFromFile "[A]\nx = 1\ny = 2\n\n[B]\nx = 3\n".toList
          "A".toList "x".toList = some text' ∧
      ∃ ts' : List Triple, ParseFile text' = some ts' ∧
        ∀ σ k v : Str, someTriple (σ, k, v) ∈ ts' ↔
          ((σ, k, v) ∈ [("A".toList, "x".toList, "1".toList),
              ("A".toList, "y".toList, "2".toList),
              ("B".toList, "x".toList, "3".toList)] ∧
            ¬(σ = "A".toList ∧ k = "x".toList)) :=
  claim_C6_delete "[A]\nx = 1\ny = 2\n\n[B]\nx = 3\n".toList "A".toList "x".toList
    [("A".toList, "x".toList, "1".toList), ("A".toList, "y".toList, "2".toList),
      ("B".toList, "x".toList, "3".toList)]
    (by decide) (by decide) (by decide) (by decide)

/-- C7 counterexample: traversal order after `AddEntryToList` insertions
is NOT lexicographic.  Inserting into the empty list first under section
`"b"` and then under section `"a"` leaves the traversal in insertion
order, `b` before `a`, which is strictly decreasing in the (section, key)
lexicographic order. -/
theorem claim_C7_counterexample :
    entriesOfList (loadOps [("b".toList, "x".toList, "1".toList),
        ("a".toList, "y".toList, "2".toList)])
      = [("b".toList, "x".toList, "1".toList), ("a".toList, "y".toList, "2".toList)] ∧
    ¬ List.Chain' pairLE
        ((entriesOfList (loadOps [("b".toList, "x".toList, "1".toList),
            ("a".toList, "y".toList, "2".toList)])).map (fun t => (t.1, t.2.1))) := by
  refine ⟨by decide, ?_⟩
  intro h
  rw [show (entriesOfList (loadOps [("b".toList, "x".toList, "1".toList),
      ("a".toList, "y".toList, "2".toList)])).map (fun t => (t.1, t.2.1))
    = [("b".toList, "x".toList), ("a".toList, "y".toList)] from by decide] at h
  have := List.chain'_cons.1 h
  revert this
  decide

/-- C7 (amended): after any sequence of `AddEntryToList` insertions into
an empty store, a full traversal visits each section exactly once as a
contiguous group, the sections in order of their first insertion, and
the keys within each section in order of their first insertion — not in
lexicographic order. -/
theorem claim_C7_insertion_order (ops : List (Str × Str × Str)) :
    (loadOps ops).map IniSection.name = firstDedup (ops.map (fun t => t.1)) ∧
    ∀ sec ∈ loadOps ops,
      sec.members.map Prod.fst
        = firstDedup ((ops.filter (fun t => decide (t.1 = sec.name))).map (fun t => t.2.1)) := by
  constructor
  · exact names_loadOps ops
  · intro sec hm
    have hwfs : WFS (loadOps ops) := WFS_foldTriples ops [] WFS_nil
    have hsm := sectionMembers_of_mem hwfs.1 hm
    have hkeys := sectionKeys_foldTriples ops [] sec.name
    rw [← loadOps_eq_foldTriples, hsm] at hkeys
    rw [hkeys, firstDedup, List.foldl_map]
    rfl

theorem claim_C7_witness :
    (loadOps [("b".toList, "x".toList, "1".toList), ("a".toList, "y".toList, "2".toList),
        ("b".toList, "z".toList, "3".toList)]).map IniSection.name
      = firstDedup ([("b".toList, "x".toList, "1".toList),
          ("a".toList, "y".toList, "2".toList),
          ("b".toList, "z".toList, "3".toList)].map (fun t => t.1)) ∧
    ∀ sec ∈ loadOps [("b".toList, "x".toList, "1".toList),
        ("a".toList, "y".toList, "2".toList), ("b".toList, "z".toList, "3".toList)],
      sec.members.map Prod.fst
        = firstDedup (([("b".toList, "x".toList, "1".toList),
            ("a".toList, "y".toList, "2".toList),
            ("b".toList, "z".toList, "3".toList)].filter
              (fun t => decide (t.1 = sec.name))).map (fun t => t.2.1)) :=
  claim_C7_insertion_order [("b".toList, "x".toList, "1".toList),
    ("a".toList, "y".toList, "2".toList), ("b".toList, "z".toList, "3".toList)]

/-- C8: allocation failure in `AddEntryToList` is not atomic, contrary
to the claim.  With the allocation oracle failing the first allocation:
on the update path (existing section `a`, existing key `k`) the call
returns -1 but the old value has already been freed and replaced by
NULL, so the prior state is destroyed; on the new-section path (section
`b` not in the list) the call returns 0 — success — although the entry
was never added, because `next->next = NewSectionList(...)` is not
checked. -/
theorem claim_C8_alloc_failure :
    AddEntryToListAlloc [false] [⟨"a".toList, [("k".toList, some "1".toList)]⟩]
        "a".toList "k".toList "2".toList
      = (-1, [⟨"a".toList, [("k".toList, none)]⟩], []) ∧
    AddEntryToListAlloc [false] [⟨"a".toList, [("k".toList, some "1".toList)]⟩]
        "b".toList "k2".toList "v".toList
      = (0, [⟨"a".toList, [("k".toList, some "1".toList)]⟩], []) := by
  refine ⟨by decide, by decide⟩

/-- C9 counterexample: a header whose bracket text is nonempty
whitespace is NOT parsed to its trimmed (empty) text.  On `"[ ]"` the
terminator lands before the position the whitespace skip reached, and
the section becomes `"]"` — not the empty string that trimming `" "`
yields (as `"[]"` does produce). -/
theorem claim_C9_counterexample :
    GetEntryFromFile "[ ]\nk = v".toList FreeEntry
      = (1, [], ⟨some "]".toList, some "k".toList, some "v".toList⟩) ∧
    trimWS " ".toList = [] ∧
    ("]".toList : Str) ≠ ([] : Str) ∧
    GetEntryFromFile "[]\nk = v".toList FreeEntry
      = (1, [], ⟨some [], some "k".toList, some "v".toList⟩) := by
  refine ⟨by decide, by decide, by decide, by decide⟩

/-- C9 (amended): for a line whose first character is `'['` and which
contains a closing `']'`, if the text between the brackets is empty or
contains a non-whitespace character, that text trimmed of surrounding
whitespace becomes the new current section for subsequent key/value
lines; in particular `"[]"` yields the empty-string section and is
accepted.  (A nonempty all-whitespace bracket text instead yields the
`']'` and the rest of the line, per the counterexample.) -/
theorem claim_C9_section_header (inner post : Str) (ls : List Str) (e : IniEntry)
    (h1 : ']' ∉ inner) (h2 : inner = [] ∨ ¬inner.all isspace = true) :
    GetEntryFromLines (('[' :: (inner ++ ']' :: post)) :: ls) e
      = GetEntryFromLines ls { e with sec := some (trimWS inner) } := by
  refine getEntry_step_header h1 ?_ ls e
  rintro ⟨hne, hall⟩
  rcases h2 with h2 | h2
  · exact hne h2
  · exact h2 hall

theorem claim_C9_witness :
    GetEntryFromLines (('[' :: (" s ".toList ++ ']' :: "junk".toList)) :: [])
        FreeEntry
      = GetEntryFromLines [] { FreeEntry with sec := some (trimWS " s ".toList) } :=
  claim_C9_section_header " s ".toList "junk".toList [] FreeEntry (by decide)
    (Or.inr (by decide))

/-- C10: whenever `GetEntryFromFile` returns 0 (no more entries), it has
called `FreeEntry` on the caller-supplied entry: the returned entry has
its section, key and value all NULL, invalidating the triple from the
previous successful call. -/
theorem claim_C10_eof_frees (s : Str) (e : IniEntry)
    (h : (GetEntryFromFile s e).1 = 0) :
    (GetEntryFromFile s e).2.2 = FreeEntry :=
  getEntry_zero_freed (linesOf s) e h

theorem claim_C10_witness :
    (GetEntryFromFile "; done\n".toList ⟨some "a".toList, some "b".toList, some "c".toList⟩).1
        = 0 ∧
    (GetEntryFromFile "; done\n".toList ⟨some "a".toList, some "b".toList, some "c".toList⟩).2.2
        = FreeEntry :=
  ⟨by decide,
    claim_C10_eof_frees "; done\n".toList ⟨some "a".toList, some "b".toList, some "c".toList⟩
      (by decide)⟩

end Ezini